import Mathlib

/-!
Verification development for the `phyl-ai-chatbot` backend (`main.py`).

The repository is a FastAPI glue service: a `/ask` endpoint forwards student
questions through a fixed workflow (`claude_orchestrated_query` →
`claude_orchestrated_query_optimized` → `execute_fresh_connection_workflow`)
that talks to a Postgres MCP subprocess via `query_mcp_server` and to the
Claude API.  A separate, free-form tool-use loop
(`claude_intelligent_query` / `process_claude_tool_response`) also exists in
the source.  This file gives a shallow embedding of those functions and of
the result normalizer `parse_mcp_result`, and proves/refutes the frozen
claims about them.

Modelling conventions:
* Python/JSON data values are the inductive `PyValue` (ints, strings as
  `List Char`, booleans, `None`, lists, string-keyed dicts).  Floats and
  non-string dict keys are outside the dialects exercised by this service
  and are not modelled.
* `json.loads` and `ast.literal_eval` are modelled by one parameterized
  recursive-descent parser (`parseVal`) over the sub-grammar relevant here
  (the values of `PyValue`); `\uXXXX` escapes, floats and leading-zero
  numerals are outside the modelled grammar.  The parser is fueled by the
  input length, which dominates the recursion depth.
* External effects (MCP connections, the Claude API) are modelled by
  explicit environment parameters and event traces.
-/

/-- Structured values as produced by `json.loads` / `ast.literal_eval` in
this service: the data model of MCP tool results. -/
inductive PyValue where
  | int (n : Int)
  | str (s : List Char)
  | bool (b : Bool)
  | none
  | list (xs : List PyValue)
  | dict (xs : List (List Char × PyValue))

/-- Strong induction for the nested inductive `PyValue`. -/
def PyValue.my_ind (motive : PyValue → Prop)
    (hint : ∀ n, motive (.int n))
    (hstr : ∀ s, motive (.str s))
    (hbool : ∀ b, motive (.bool b))
    (hnone : motive .none)
    (hlist : ∀ xs, (∀ x ∈ xs, motive x) → motive (.list xs))
    (hdict : ∀ xs, (∀ p ∈ xs, motive p.2) → motive (.dict xs)) :
    ∀ v, motive v := fun v =>
  match v with
  | .int n => hint n
  | .str s => hstr s
  | .bool b => hbool b
  | .none => hnone
  | .list xs => hlist xs (fun x hx => PyValue.my_ind motive hint hstr hbool hnone hlist hdict x)
  | .dict xs => hdict xs (fun p hp => PyValue.my_ind motive hint hstr hbool hnone hlist hdict p.2)
termination_by v => sizeOf v
decreasing_by
  · have h1 := List.sizeOf_lt_of_mem hx
    simp only [PyValue.list.sizeOf_spec]
    omega
  · have h1 := List.sizeOf_lt_of_mem hp
    obtain ⟨k, w⟩ := p
    simp only [Prod.mk.sizeOf_spec, PyValue.dict.sizeOf_spec] at h1 ⊢
    omega

-- Boolean equality on `PyValue`, and decidable equality through it.
mutual
def PyValue.beq : PyValue → PyValue → Bool
  | .int a, .int b => a == b
  | .str a, .str b => a == b
  | .bool a, .bool b => a == b
  | .none, .none => true
  | .list a, .list b => PyValue.beqL a b
  | .dict a, .dict b => PyValue.beqD a b
  | _, _ => false

def PyValue.beqL : List PyValue → List PyValue → Bool
  | [], [] => true
  | x :: xs, y :: ys => PyValue.beq x y && PyValue.beqL xs ys
  | _, _ => false

def PyValue.beqD : List (List Char × PyValue) → List (List Char × PyValue) → Bool
  | [], [] => true
  | (k, v) :: xs, (l, w) :: ys => k == l && PyValue.beq v w && PyValue.beqD xs ys
  | _, _ => false
end

/-- `PyValue.beq` decides equality. -/
def PyValue.beq_iff : ∀ a b : PyValue, PyValue.beq a b = true ↔ a = b := by
  intro a
  induction a using PyValue.my_ind with
  | hint n => intro b; cases b <;> simp [PyValue.beq]
  | hstr s => intro b; cases b <;> simp [PyValue.beq]
  | hbool bb => intro b; cases b <;> simp [PyValue.beq]
  | hnone => intro b; cases b <;> simp [PyValue.beq]
  | hlist xs ih =>
    intro b
    cases b with
    | int n => simp [PyValue.beq]
    | str s => simp [PyValue.beq]
    | bool bb => simp [PyValue.beq]
    | none => simp [PyValue.beq]
    | dict ys => simp [PyValue.beq]
    | list ys =>
      simp only [PyValue.beq, PyValue.list.injEq]
      induction xs generalizing ys with
      | nil => cases ys <;> simp [PyValue.beqL]
      | cons x xs ihx =>
        cases ys with
        | nil => simp [PyValue.beqL]
        | cons y ys =>
          simp only [PyValue.beqL, Bool.and_eq_true, List.cons.injEq]
          rw [ih x (by simp), ihx (fun z hz => ih z (by simp [hz])) ys]
  | hdict xs ih =>
    intro b
    cases b with
    | int n => simp [PyValue.beq]
    | str s => simp [PyValue.beq]
    | bool bb => simp [PyValue.beq]
    | none => simp [PyValue.beq]
    | list ys => simp [PyValue.beq]
    | dict ys =>
      simp only [PyValue.beq, PyValue.dict.injEq]
      induction xs generalizing ys with
      | nil => cases ys <;> simp [PyValue.beqD]
      | cons x xs ihx =>
        cases ys with
        | nil => simp [PyValue.beqD]
        | cons y ys =>
          obtain ⟨k, v⟩ := x
          obtain ⟨l, w⟩ := y
          simp only [PyValue.beqD, Bool.and_eq_true, List.cons.injEq, Prod.mk.injEq, beq_iff_eq]
          rw [ih (k, v) (by simp), ihx (fun z hz => ih z (by simp [hz])) ys]

instance : DecidableEq PyValue := fun a b => decidable_of_iff _ (PyValue.beq_iff a b)

-- Parser fuel needed by a value (bounded by its printed length).
mutual
def PyValue.sz : PyValue → Nat
  | .int _ => 1
  | .str _ => 1
  | .bool _ => 1
  | .none => 1
  | .list xs => 1 + PyValue.szL xs
  | .dict xs => 1 + PyValue.szD xs

def PyValue.szL : List PyValue → Nat
  | [] => 0
  | x :: t => 1 + max (PyValue.sz x) (PyValue.szL t)

def PyValue.szD : List (List Char × PyValue) → Nat
  | [] => 0
  | (_, v) :: t => 1 + max (PyValue.sz v) (PyValue.szD t)
end

/-- The decimal digit characters, by value (values ≥ 10 unused). -/
def digitChar : Nat → Char
  | 0 => '0'
  | 1 => '1'
  | 2 => '2'
  | 3 => '3'
  | 4 => '4'
  | 5 => '5'
  | 6 => '6'
  | 7 => '7'
  | 8 => '8'
  | 9 => '9'
  | _ => '0'

/-- Worker for `natChars`, fueled so that it reduces in the kernel. -/
def natCharsAux : Nat → Nat → List Char
  | 0, _ => []
  | fuel + 1, n =>
    if n < 10 then [digitChar n]
    else natCharsAux fuel (n / 10) ++ [digitChar (n % 10)]

/-- Decimal digits of a natural number, most significant first. -/
def natChars (n : Nat) : List Char := natCharsAux (n + 1) n

/-- Decimal rendering of an integer, as Python/JSON print it. -/
def intChars (n : Int) : List Char :=
  if n < 0 then '-' :: natChars n.natAbs else natChars n.natAbs

/-- Parser configuration: distinguishes the `json.loads` grammar from the
`ast.literal_eval` grammar (quote styles, escape table, keyword spellings,
whitespace set). -/
structure PCfg where
  single : Bool
  esc : Char → Option Char
  ws : Char → Bool
  kwTrue : List Char
  kwFalse : List Char
  kwNone : List Char

/-- Decimal-digit test on characters (code points 48-57). -/
def isDigitCh (c : Char) : Bool := 48 ≤ c.toNat && c.toNat ≤ 57

/-- Does the list start with this character? -/
def headIs : List Char → Char → Bool
  | [], _ => false
  | c :: _, d => c == d

/-- Tail of a character list (empty for empty). -/
def tailOf : List Char → List Char
  | [] => []
  | _ :: t => t

/-- Drop a leading whitespace run. -/
def skipWs (isW : Char → Bool) : List Char → List Char
  | [] => []
  | c :: cs => if isW c then skipWs isW cs else c :: cs

/-- `stripPre p cs` removes the exact leading pattern `p` from `cs`. -/
def stripPre : List Char → List Char → Option (List Char)
  | [], cs => some cs
  | _ :: _, [] => Option.none
  | p :: ps, c :: cs => if c = p then stripPre ps cs else Option.none

/-- String-body scanner: reads characters up to the closing `delim`,
decoding backslash escapes through `esc` (unknown escapes fail, as both
parsers are modelled strictly). -/
def parseStrBodyAux (esc : Char → Option Char) (delim : Char) : Bool → List Char → Option (List Char × List Char)
  | _, [] => Option.none
  | true, e :: cs =>
    (esc e).elim Option.none
      (fun d => (parseStrBodyAux esc delim false cs).map (fun p => (d :: p.1, p.2)))
  | false, c :: cs =>
    if c = delim then some ([], cs)
    else if c = '\\' then parseStrBodyAux esc delim true cs
    else (parseStrBodyAux esc delim false cs).map (fun p => (c :: p.1, p.2))

/-- See `parseStrBodyAux`: scan with no pending escape. -/
def parseStrBody (esc : Char → Option Char) (delim : Char) (cs : List Char) : Option (List Char × List Char) :=
  parseStrBodyAux esc delim false cs

/-- Leading digit run of the input. -/
def takeDigits : List Char → (List Char × List Char)
  | [] => ([], [])
  | c :: cs =>
    if isDigitCh c then
      let p := takeDigits cs
      (c :: p.1, p.2)
    else ([], c :: cs)

/-- Numeric value of a digit character. -/
def digitVal (c : Char) : Nat := c.toNat - 48

/-- Numeric value of a digit run, most significant first. -/
def digitsVal (ds : List Char) : Nat := ds.foldl (fun a c => 10 * a + digitVal c) 0

/-- Parse a nonempty digit run into a natural number. -/
def parseNatPart (cs : List Char) : Option (Nat × List Char) :=
  match takeDigits cs with
  | ([], _) => Option.none
  | (ds, rest) => some (digitsVal ds, rest)

/-- Parse a quoted dict key (no fuel needed: keys are flat strings). -/
def parseKey (cfg : PCfg) : List Char → Option (List Char × List Char)
  | [] => Option.none
  | c :: rest =>
    if c = '"' then parseStrBody cfg.esc '"' rest
    else if c = '\'' then (if cfg.single then parseStrBody cfg.esc '\'' rest else Option.none)
    else Option.none

mutual
/-- Recursive-descent value parser shared by the `json.loads` and
`ast.literal_eval` models; fuel bounds the nesting recursion. -/
def parseVal (cfg : PCfg) : Nat → List Char → Option (PyValue × List Char)
  | 0, _ => Option.none
  | fuel + 1, cs =>
    match skipWs cfg.ws cs with
    | [] => Option.none
    | c :: rest =>
      if c = '"' then (parseStrBody cfg.esc '"' rest).map (fun p => (PyValue.str p.1, p.2))
      else if c = '\'' then
        if cfg.single then (parseStrBody cfg.esc '\'' rest).map (fun p => (PyValue.str p.1, p.2))
        else Option.none
      else if c = '[' then
        let r1 := skipWs cfg.ws rest
        if headIs r1 ']' then some (PyValue.list [], tailOf r1)
        else (parseElems cfg fuel r1).map (fun p => (PyValue.list p.1, p.2))
      else if c = '{' then
        let r1 := skipWs cfg.ws rest
        if headIs r1 '}' then some (PyValue.dict [], tailOf r1)
        else (parseEntries cfg fuel r1).map (fun p => (PyValue.dict p.1, p.2))
      else if c = '-' then (parseNatPart rest).map (fun p => (PyValue.int (-(p.1 : Int)), p.2))
      else if isDigitCh c then (parseNatPart (c :: rest)).map (fun p => (PyValue.int (p.1 : Int), p.2))
      else
        (stripPre cfg.kwTrue (c :: rest)).elim
          ((stripPre cfg.kwFalse (c :: rest)).elim
            ((stripPre cfg.kwNone (c :: rest)).elim Option.none
              (fun r => some (PyValue.none, r)))
            (fun r => some (PyValue.bool false, r)))
          (fun r => some (PyValue.bool true, r))

/-- Comma-separated list elements up to the closing bracket. -/
def parseElems (cfg : PCfg) : Nat → List Char → Option (List PyValue × List Char)
  | 0, _ => Option.none
  | fuel + 1, cs =>
    (parseVal cfg fuel cs).bind (fun p =>
      if headIs (skipWs cfg.ws p.2) ',' then
        (parseElems cfg fuel (tailOf (skipWs cfg.ws p.2))).map (fun q => (p.1 :: q.1, q.2))
      else if headIs (skipWs cfg.ws p.2) ']' then some ([p.1], tailOf (skipWs cfg.ws p.2))
      else Option.none)

/-- Comma-separated `key: value` entries up to the closing brace. -/
def parseEntries (cfg : PCfg) : Nat → List Char → Option (List (List Char × PyValue) × List Char)
  | 0, _ => Option.none
  | fuel + 1, cs =>
    (parseKey cfg (skipWs cfg.ws cs)).bind (fun kp =>
      if headIs (skipWs cfg.ws kp.2) ':' then
        (parseVal cfg fuel (tailOf (skipWs cfg.ws kp.2))).bind (fun vp =>
          if headIs (skipWs cfg.ws vp.2) ',' then
            (parseEntries cfg fuel (tailOf (skipWs cfg.ws vp.2))).map
              (fun q => ((kp.1, vp.1) :: q.1, q.2))
          else if headIs (skipWs cfg.ws vp.2) '}' then
            some ([(kp.1, vp.1)], tailOf (skipWs cfg.ws vp.2))
          else Option.none)
      else Option.none)
end

/-- JSON escape table of `json.loads` (`\uXXXX` outside the modelled grammar). -/
def escJTab (c : Char) : Option Char :=
  if c = '"' then some '"'
  else if c = '\\' then some '\\'
  else if c = '/' then some '/'
  else if c = 'n' then some '\n'
  else if c = 't' then some '\t'
  else if c = 'r' then some '\r'
  else if c = 'b' then some (Char.ofNat 8)
  else if c = 'f' then some (Char.ofNat 12)
  else Option.none

/-- Python string-literal escape table used by `ast.literal_eval`
(restricted to the escapes the service's data can carry). -/
def escPTab (c : Char) : Option Char :=
  if c = '\'' then some '\''
  else if c = '"' then some '"'
  else if c = '\\' then some '\\'
  else if c = 'n' then some '\n'
  else if c = 't' then some '\t'
  else if c = 'r' then some '\r'
  else Option.none

/-- JSON whitespace (RFC 8259). -/
def jsonWsChar (c : Char) : Bool := c == ' ' || c == '\t' || c == '\n' || c == '\r'

/-- Python `str.strip()` / tokenizer whitespace. -/
def pyWsChar (c : Char) : Bool :=
  c == ' ' || c == '\t' || c == '\n' || c == '\r' || c == Char.ofNat 11 || c == Char.ofNat 12

/-- Configuration modelling `json.loads`. -/
def jsonCfg : PCfg :=
  { single := false
    esc := escJTab
    ws := jsonWsChar
    kwTrue := ['t', 'r', 'u', 'e']
    kwFalse := ['f', 'a', 'l', 's', 'e']
    kwNone := ['n', 'u', 'l', 'l'] }

/-- Configuration modelling `ast.literal_eval`. -/
def pyCfg : PCfg :=
  { single := true
    esc := escPTab
    ws := pyWsChar
    kwTrue := ['T', 'r', 'u', 'e']
    kwFalse := ['F', 'a', 'l', 's', 'e']
    kwNone := ['N', 'o', 'n', 'e'] }

/-- Run a full parse: one value, then only trailing whitespace. -/
def runParse (cfg : PCfg) (s : List Char) : Option PyValue :=
  (parseVal cfg (s.length + 1) s).bind
    (fun p => if skipWs cfg.ws p.2 = [] then some p.1 else Option.none)

/-- Model of `json.loads` on the grammar relevant to this service. -/
def jsonLoads (s : String) : Option PyValue := runParse jsonCfg s.data

/-- Model of `ast.literal_eval` on the grammar relevant to this service. -/
def literal_eval (s : String) : Option PyValue := runParse pyCfg s.data

/-- Worker for `replaceL`, fueled so that it reduces in the kernel (the
fuel `s.length` always suffices: each step consumes at least one
character). -/
def replaceAux (p r : List Char) : Nat → List Char → List Char
  | 0, s => s
  | _ + 1, [] => []
  | fuel + 1, c :: cs =>
    if p.isPrefixOf (c :: cs) then r ++ replaceAux p r fuel (List.drop (p.length - 1) cs)
    else c :: replaceAux p r fuel cs

/-- Python `str.replace`: leftmost, non-overlapping occurrences of `p`
replaced by `r` (never called with empty `p` in the source). -/
def replaceL (p r : List Char) (s : List Char) : List Char := replaceAux p r s.length s

/-- The quote-and-keyword rewrite of `parse_mcp_result` (main.py:79-81):
single quotes to double quotes, then `True`/`False`/`None` to their JSON
spellings, each as a plain global `str.replace`. -/
def convertPy (s : List Char) : List Char :=
  replaceL ['N', 'o', 'n', 'e'] ['n', 'u', 'l', 'l']
    (replaceL ['F', 'a', 'l', 's', 'e'] ['f', 'a', 'l', 's', 'e']
      (replaceL ['T', 'r', 'u', 'e'] ['t', 'r', 'u', 'e']
        (replaceL ['\''] ['"'] s)))

/-- Python truthiness of `s.strip()` being empty: the whole text is
whitespace. -/
def isBlank (s : List Char) : Bool := s.all pyWsChar

/-- The `raw_text` fallback wrapper without the parse-failure marker
(main.py:58). -/
def rawWrap (t : String) : PyValue :=
  PyValue.dict [(("raw_text").data, PyValue.str t.data)]

/-- The final-fallback wrapper carrying the explicit parse-failure marker
(main.py:90). -/
def failWrap (t : String) : PyValue :=
  PyValue.dict
    [(("raw_text").data, PyValue.str t.data),
     (("parsing_error").data, PyValue.str ("Could not parse as JSON or Python literal").data)]

/-- Embedding of `parse_mcp_result` (main.py:45-90): blank-input guard, then
the three-stage parse cascade, then the marked fallback. -/
def parse_mcp_result (result_text : String) : PyValue :=
  if isBlank result_text.data then rawWrap result_text
  else
    match jsonLoads result_text with
    | some v => v
    | Option.none =>
      match literal_eval result_text with
      | some v => v
      | Option.none =>
        match runParse jsonCfg (convertPy result_text.data) with
        | some v => v
        | Option.none => failWrap result_text

/-- Modelled from the spec (§4.2 Result Normalizer): the strategy chain as
the spec words it — strict parse, then native-literal parse, then the
quote/keyword rewrite and reparse, with the first success returned and the
parse-failure-marked wrapper when all three fail; no blank-input guard is
mentioned.  Refinement target for the claims about `parse_mcp_result`. -/
def normalizeSpec (result_text : String) : PyValue :=
  match jsonLoads result_text with
  | some v => v
  | Option.none =>
    match literal_eval result_text with
    | some v => v
    | Option.none =>
      match runParse jsonCfg (convertPy result_text.data) with
      | some v => v
      | Option.none => failWrap result_text

/-- A single-quote character as a string (kept out of string literals). -/
def apos : String := ⟨['\'']⟩

/-- Wrap a text in SQL single quotes. -/
def sqlQ (s : String) : String := apos ++ s ++ apos

/-- Python `str.strip()`: drop leading and trailing whitespace. -/
def pyStrip (s : List Char) : List Char :=
  ((s.dropWhile pyWsChar).reverse.dropWhile pyWsChar).reverse

/-- Printer configuration: the canonical renderer of one textual dialect. -/
structure PrCfg where
  delim : Char
  esc : Char → List Char
  kwTrue : List Char
  kwFalse : List Char
  kwNone : List Char

/-- JSON string-content escaping as `json.dumps` performs it on the
characters this service's data carries (control characters outside
`\n`, `\t`, `\r` are rendered raw by the model printer). -/
def escJ (c : Char) : List Char :=
  if c = '"' then ['\\', '"']
  else if c = '\\' then ['\\', '\\']
  else if c = '\n' then ['\\', 'n']
  else if c = '\t' then ['\\', 't']
  else if c = '\r' then ['\\', 'r']
  else [c]

/-- Python single-quoted string-content escaping as `repr` performs it. -/
def escP (c : Char) : List Char :=
  if c = '\'' then ['\\', '\'']
  else if c = '\\' then ['\\', '\\']
  else if c = '\n' then ['\\', 'n']
  else if c = '\t' then ['\\', 't']
  else if c = '\r' then ['\\', 'r']
  else [c]

/-- Escape every character of a string body. -/
def escBody (esc : Char → List Char) : List Char → List Char
  | [] => []
  | c :: cs => esc c ++ escBody esc cs

mutual
/-- Canonical printer of a dialect: `prV jsonPr` models `json.dumps`,
`prV pyPr` models `repr`/`str`, `prV mixedPr` renders the mixed-quote
dialect (single-quoted strings with JSON keyword spellings). -/
def prV (pc : PrCfg) : PyValue → List Char
  | .int n => intChars n
  | .str s => pc.delim :: (escBody pc.esc s ++ [pc.delim])
  | .bool b => if b then pc.kwTrue else pc.kwFalse
  | .none => pc.kwNone
  | .list xs => '[' :: prL pc xs
  | .dict xs => '{' :: prD pc xs

/-- Elements of a printed list, including the closing bracket. -/
def prL (pc : PrCfg) : List PyValue → List Char
  | [] => [']']
  | [x] => prV pc x ++ [']']
  | x :: y :: t => prV pc x ++ ',' :: ' ' :: prL pc (y :: t)

/-- Entries of a printed dict, including the closing brace. -/
def prD (pc : PrCfg) : List (List Char × PyValue) → List Char
  | [] => ['}']
  | [(k, v)] => pc.delim :: (escBody pc.esc k ++ pc.delim :: ':' :: ' ' :: prV pc v ++ ['}'])
  | (k, v) :: e :: t =>
    pc.delim :: (escBody pc.esc k ++ pc.delim :: ':' :: ' ' :: prV pc v ++ ',' :: ' ' :: prD pc (e :: t))
end

/-- The strict-JSON dialect renderer (double quotes, `true`/`false`/`null`). -/
def jsonPr : PrCfg :=
  { delim := '"'
    esc := escJ
    kwTrue := ['t', 'r', 'u', 'e']
    kwFalse := ['f', 'a', 'l', 's', 'e']
    kwNone := ['n', 'u', 'l', 'l'] }

/-- The Python native-literal dialect renderer (single quotes,
`True`/`False`/`None`). -/
def pyPr : PrCfg :=
  { delim := '\''
    esc := escP
    kwTrue := ['T', 'r', 'u', 'e']
    kwFalse := ['F', 'a', 'l', 's', 'e']
    kwNone := ['N', 'o', 'n', 'e'] }

/-- The mixed-quote dialect renderer (single quotes with JSON keyword
spellings). -/
def mixedPr : PrCfg :=
  { delim := '\''
    esc := escP
    kwTrue := ['t', 'r', 'u', 'e']
    kwFalse := ['f', 'a', 'l', 's', 'e']
    kwNone := ['n', 'u', 'l', 'l'] }

/-- `str()` of a value, as Python renders tool-result dicts (main.py:515). -/
def pyStrOf (v : PyValue) : String := ⟨prV pyPr v⟩

mutual
/-- Does the value contain any string (note every nonempty dict does,
through its keys)? -/
def hasString : PyValue → Bool
  | .int _ => false
  | .str _ => true
  | .bool _ => false
  | .none => false
  | .list xs => hasStringL xs
  | .dict [] => false
  | .dict (_ :: _) => true

def hasStringL : List PyValue → Bool
  | [] => false
  | x :: t => hasString x || hasStringL t
end

mutual
/-- Does the value contain any boolean or `None`? -/
def hasBN : PyValue → Bool
  | .int _ => false
  | .str _ => false
  | .bool _ => true
  | .none => true
  | .list xs => hasBNL xs
  | .dict xs => hasBND xs

def hasBNL : List PyValue → Bool
  | [] => false
  | x :: t => hasBN x || hasBNL t

def hasBND : List (List Char × PyValue) → Bool
  | [] => false
  | (_, v) :: t => hasBN v || hasBND t
end

/-- A character the mixed-quote rewrite can never touch: not a quote and
not the leading capital of `True`/`False`/`None`. -/
def safeChar (c : Char) : Bool :=
  !(c == '\'' || c == '"' || c == 'T' || c == 'F' || c == 'N')

mutual
/-- All string contents (values and keys) of the value consist of
characters the quote-and-keyword rewrite cannot touch. -/
def cleanV : PyValue → Bool
  | .int _ => true
  | .str s => s.all safeChar
  | .bool _ => true
  | .none => true
  | .list xs => cleanL xs
  | .dict xs => cleanD xs

def cleanL : List PyValue → Bool
  | [] => true
  | x :: t => cleanV x && cleanL t

def cleanD : List (List Char × PyValue) → Bool
  | [] => true
  | (k, v) :: t => k.all safeChar && cleanV v && cleanD t
end

-- ### The Tool Executor: `query_mcp_server` (main.py:161-234)

/-- Outcome of establishing the stdio client + session (main.py:184-187). -/
inductive ConnOutcome where
  | fail (msg : String)
  | ok
deriving DecidableEq

/-- Outcome of one `session.call_tool` (main.py:190-199): an exception, or
a response carrying a list of content texts. -/
inductive CallOutcome where
  | raises (msg : String)
  | returns (contents : List String)

/-- Environment double for one `query_mcp_server` call: connection
behaviour and tool-call behaviour of the external data-access process. -/
structure MCPEnv where
  connect : ConnOutcome
  call : String → PyValue → CallOutcome

/-- Observable events of the embedding: connection lifecycle, tool calls
on the MCP session, and LLM API calls (tagged by whether a tool catalog is
passed — only the tool-use loop ever passes one). -/
inductive Ev where
  | openConn (cid : Nat)
  | toolCall (tname : String) (args : PyValue)
  | closeConn (cid : Nat)
  | llmCall (withTools : Bool)
deriving DecidableEq

/-- Python truthiness restricted to `Option String` (`None` and the empty
string are falsy). -/
def optTruthy : Option String → Bool
  | Option.none => false
  | some s => !(s == "")

/-- The tool-dispatch conditions of main.py:189-201: which MCP tool is
invoked with which arguments, or `none` for the
`Invalid tool or missing required parameters` branch. -/
def toolRequest (use_tool : String) (sql_query : Option String) (schema_name : String)
    (object_name : Option String) : Option (String × PyValue) :=
  if use_tool == "list_objects" then
    some ("list_objects", PyValue.dict [(("schema_name").data, PyValue.str schema_name.data)])
  else if use_tool == "get_object_details" && optTruthy object_name then
    some ("get_object_details",
      PyValue.dict [(("object_name").data, PyValue.str ((object_name.getD "").data)),
                    (("schema_name").data, PyValue.str schema_name.data)])
  else if use_tool == "execute_sql" && optTruthy sql_query then
    some ("execute_sql", PyValue.dict [(("sql").data, PyValue.str ((sql_query.getD "").data))])
  else Option.none

/-- The error result of the `except` handler (main.py:234). -/
def mcpError (msg : String) : PyValue :=
  PyValue.dict
    [(("success").data, PyValue.bool false),
     (("data").data, PyValue.none),
     (("raw").data, PyValue.str ((("MCP server error: ").data) ++ msg.data))]

/-- The success result (main.py:227). -/
def mcpSuccess (parsed : PyValue) : PyValue :=
  PyValue.dict [(("success").data, PyValue.bool true), (("data").data, parsed)]

/-- The empty-content result (main.py:230) — note: no `raw` field. -/
def mcpNoContent : PyValue :=
  PyValue.dict [(("success").data, PyValue.bool false), (("data").data, PyValue.dict [])]

/-- Embedding of `query_mcp_server` (main.py:161-234): one fresh
connection per call, one tool call, connection closed on every path by the
`async with` blocks; every exception caught and turned into an error
result.  `cid` identifies the fresh connection in the event trace. -/
def query_mcp_server (env : MCPEnv) (cid : Nat) (sql_query : Option String) (use_tool : String)
    (schema_name : String) (object_name : Option String) : PyValue × List Ev :=
  match env.connect with
  | ConnOutcome.fail msg => (mcpError msg, [])
  | ConnOutcome.ok =>
    match toolRequest use_tool sql_query schema_name object_name with
    | Option.none =>
      (mcpError "Invalid tool or missing required parameters", [Ev.openConn cid, Ev.closeConn cid])
    | some (tname, targs) =>
      match env.call tname targs with
      | CallOutcome.raises msg =>
        (mcpError msg, [Ev.openConn cid, Ev.toolCall tname targs, Ev.closeConn cid])
      | CallOutcome.returns contents =>
        match contents with
        | [] => (mcpNoContent, [Ev.openConn cid, Ev.toolCall tname targs, Ev.closeConn cid])
        | c :: _ =>
          let result_text : String := ⟨pyStrip c.data⟩
          (mcpSuccess (parse_mcp_result result_text),
           [Ev.openConn cid, Ev.toolCall tname targs, Ev.closeConn cid])

-- ### The Conversation Orchestrator: `process_claude_tool_response` (main.py:479-555)

/-- A `tool_use` content block of a model response. -/
structure ToolUseBlock where
  id : String
  name : String
  input : PyValue
deriving DecidableEq

/-- A content block of a model response. -/
inductive ContentBlock where
  | text (s : String)
  | toolUse (b : ToolUseBlock)
deriving DecidableEq

/-- A model response: stop reason plus content blocks. -/
structure ModelResponse where
  stop_reason : String
  content : List ContentBlock
deriving DecidableEq

/-- A transcript turn as submitted to the model. -/
inductive Message where
  | userText (s : String)
  | assistantBlocks (bs : List ContentBlock)
  | toolResult (tool_use_id : String) (content : String)
deriving DecidableEq

/-- The hardcoded continuation instruction of main.py:523. -/
def execInstruction : String :=
  "EXECUTE STEP 2 NOW: Call mcp_get_object_details(object_name=\"policies\") immediately. Do not explain, just make the tool call."

/-- The no-content fallback answer of main.py:541. -/
def noContentMsg : String :=
  "I encountered an issue processing the response - no content returned."

/-- First-key lookup in a dict value (`dict.get`). -/
def dictGet (v : PyValue) (k : List Char) : Option PyValue :=
  match v with
  | PyValue.dict xs => (xs.find? (fun p => p.1 == k)).map (fun p => p.2)
  | _ => Option.none

/-- `result.get("raw", str(result))` (main.py:515). -/
def toolResultContent (result : PyValue) : String :=
  match dictGet result (("raw").data) with
  | some (PyValue.str s) => ⟨s⟩
  | some v => pyStrOf v
  | Option.none => pyStrOf result

/-- Tool dispatch of main.py:498-505.  A missing required argument key is
an uncaught `KeyError` in the source, modelled as `Except.error`
(a non-string argument value is modelled the same way; neither occurs for
well-formed blocks). -/
def execToolBlock (env : MCPEnv) (cid : Nat) (b : ToolUseBlock) : Except String (PyValue × List Ev) :=
  if b.name == "mcp_list_objects" then
    match dictGet b.input (("schema_name").data) with
    | some (PyValue.str s) =>
      Except.ok (query_mcp_server env cid Option.none "list_objects" ⟨s⟩ Option.none)
    | _ => Except.error "KeyError: schema_name"
  else if b.name == "mcp_get_object_details" then
    match dictGet b.input (("object_name").data) with
    | some (PyValue.str s) =>
      Except.ok (query_mcp_server env cid Option.none "get_object_details" "public" (some ⟨s⟩))
    | _ => Except.error "KeyError: object_name"
  else if b.name == "mcp_execute_sql" then
    match dictGet b.input (("sql").data) with
    | some (PyValue.str s) =>
      Except.ok (query_mcp_server env cid (some ⟨s⟩) "execute_sql" "public" Option.none)
    | _ => Except.error "KeyError: sql"
  else
    Except.ok
      (PyValue.dict
        [(("success").data, PyValue.bool false),
         (("raw").data, PyValue.str ((("Unknown tool: ").data) ++ b.name.data))], [])

/-- The tool-execution loop of main.py:490-517: one execution and one
correlated tool-result message per `tool_use` block, in order; each
executed block gets a fresh connection id. -/
def runToolLoop (env : MCPEnv) : Nat → List ContentBlock → Except String (List Message × List Ev × Nat)
  | cid, [] => Except.ok ([], [], cid)
  | cid, ContentBlock.text _ :: rest => runToolLoop env cid rest
  | cid, ContentBlock.toolUse b :: rest =>
    match execToolBlock env cid b with
    | Except.error e => Except.error e
    | Except.ok (result, evs) =>
      match runToolLoop env (cid + 1) rest with
      | Except.error e => Except.error e
      | Except.ok (msgs, evs2, cid2) =>
        Except.ok (Message.toolResult b.id (toolResultContent result) :: msgs, evs ++ evs2, cid2)

/-- `response.content[0].text` for a leading text block (the source would
raise on a leading non-text block; claims about this path carry the shape
hypothesis). -/
def firstText (r : ModelResponse) : String :=
  match r.content with
  | ContentBlock.text s :: _ => s
  | _ => ""

/-- Outcome of a (fuel-bounded) orchestrator run: an answer, an uncaught
exception, or still recursing when the fuel ran out. -/
inductive RunOutcome where
  | answered (s : String)
  | raised (msg : String)
  | running
deriving DecidableEq

/-- Embedding of `process_claude_tool_response` (main.py:479-555).  The
source recurses on every further `tool_use` response with no turn counter;
the embedding makes the recursion depth explicit as fuel, `running` marking
a computation that is still recursing after that many turns.  Returns the
outcome, the list of transcripts submitted to the model (main.py:522-533),
and the event trace. -/
def process_claude_tool_response (env : MCPEnv) (model : List Message → ModelResponse) :
    Nat → Nat → ModelResponse → RunOutcome × List (List Message) × List Ev
  | 0, _, _ => (RunOutcome.running, [], [])
  | fuel + 1, cid, resp =>
    if resp.stop_reason == "tool_use" then
      match runToolLoop env cid resp.content with
      | Except.error e => (RunOutcome.raised e, [], [])
      | Except.ok (tool_results, evs, cid2) =>
        let msgs := Message.userText execInstruction ::
          Message.assistantBlocks resp.content :: tool_results
        let final := model msgs
        if final.content.length == 0 then
          (RunOutcome.answered noContentMsg, [msgs], evs ++ [Ev.llmCall false])
        else if final.stop_reason == "tool_use" then
          let rec_result := process_claude_tool_response env model fuel cid2 final
          (rec_result.1, msgs :: rec_result.2.1, (evs ++ [Ev.llmCall false]) ++ rec_result.2.2)
        else
          (RunOutcome.answered (firstText final), [msgs], evs ++ [Ev.llmCall false])
    else
      (RunOutcome.answered (firstText resp), [], [])

/-- The `tool_use` blocks of a content list (main.py:490-492). -/
def toolUses : List ContentBlock → List ToolUseBlock
  | [] => []
  | ContentBlock.text _ :: rest => toolUses rest
  | ContentBlock.toolUse b :: rest => b :: toolUses rest

/-- A block the dispatch executes without an uncaught fault: a known tool
name with its required string argument, or an unknown tool (main.py:505). -/
def wellFormedBlock (b : ToolUseBlock) : Bool :=
  if b.name == "mcp_list_objects" then
    match dictGet b.input (("schema_name").data) with
    | some (PyValue.str _) => true
    | _ => false
  else if b.name == "mcp_get_object_details" then
    match dictGet b.input (("object_name").data) with
    | some (PyValue.str _) => true
    | _ => false
  else if b.name == "mcp_execute_sql" then
    match dictGet b.input (("sql").data) with
    | some (PyValue.str _) => true
    | _ => false
  else true

/-- The tool result produced for one block (connection ids do not affect
results). -/
def execToolResult (env : MCPEnv) (b : ToolUseBlock) : PyValue :=
  match execToolBlock env 0 b with
  | Except.ok (r, _) => r
  | Except.error _ => PyValue.none

-- ### The keyword router and fixed workflow (main.py:282-399) and `/ask` (main.py:613-634)

/-- ASCII lower-casing of one character (Python `str.lower()` on the
ASCII questions this service handles). -/
def charLower (c : Char) : Char :=
  if 65 ≤ c.toNat ∧ c.toNat ≤ 90 then Char.ofNat (c.toNat + 32) else c

/-- `str.lower()` on the character list of a question. -/
def pyLowerChars (s : List Char) : List Char := s.map charLower

/-- Substring test, as the Python `in` operator on strings. -/
def containsSub (pat : List Char) : List Char → Bool
  | [] => pat.isEmpty
  | c :: cs => pat.isPrefixOf (c :: cs) || containsSub pat cs

/-- `any(word in text for word in words)`. -/
def anyWordIn (words : List String) (text : List Char) : Bool :=
  words.any (fun w => containsSub w.data text)

/-- Worker for `pySplit`: `word` holds the reversed current word. -/
def pySplitAux : List Char → List Char → List (List Char)
  | word, [] => if word.isEmpty then [] else [word.reverse]
  | word, c :: cs =>
    if pyWsChar c then
      if word.isEmpty then pySplitAux [] cs else word.reverse :: pySplitAux [] cs
    else pySplitAux (c :: word) cs

/-- Python `str.split()`: split on whitespace runs, dropping empties. -/
def pySplit (s : List Char) : List (List Char) := pySplitAux [] s

/-- Python truthiness of the values this service handles. -/
def pyTruthy : PyValue → Bool
  | PyValue.none => false
  | PyValue.bool b => b
  | PyValue.int n => !(n == 0)
  | PyValue.str s => !s.isEmpty
  | PyValue.list xs => !xs.isEmpty
  | PyValue.dict xs => !xs.isEmpty

/-- Truthiness of a `dict.get` result (missing key → `None` → falsy). -/
def optPyTruthy : Option PyValue → Bool
  | Option.none => false
  | some v => pyTruthy v

/-- The policies search with a specific term (main.py:354; main.py:351 is
this at term `email`). -/
def policiesTermSql (term : String) : String :=
  "SELECT policy_category, policy_name, policy_description, details, specific_rules FROM policies WHERE policy_name ILIKE " ++
  sqlQ ("%" ++ term ++ "%") ++ " OR policy_description ILIKE " ++ sqlQ ("%" ++ term ++ "%") ++
  " OR details ILIKE " ++ sqlQ ("%" ++ term ++ "%") ++ " OR specific_rules ILIKE " ++
  sqlQ ("%" ++ term ++ "%") ++ " ORDER BY policy_category, policy_name;"

/-- One branch of the general-search UNION (main.py:368-377); unknown
tables contribute nothing. -/
def unionPiece (term : String) (table_name : String) : Option String :=
  if table_name == "assignments" then
    some ("SELECT " ++ sqlQ "assignment" ++ " as source, assignment_name as name, description as content FROM assignments WHERE assignment_name ILIKE " ++
      sqlQ ("%" ++ term ++ "%") ++ " OR description ILIKE " ++ sqlQ ("%" ++ term ++ "%"))
  else if table_name == "modules" then
    some ("SELECT " ++ sqlQ "module" ++ " as source, module_name as name, module_description as content FROM modules WHERE module_name ILIKE " ++
      sqlQ ("%" ++ term ++ "%") ++ " OR module_description ILIKE " ++ sqlQ ("%" ++ term ++ "%"))
  else if table_name == "policies" then
    some ("SELECT " ++ sqlQ "policy" ++ " as source, policy_name as name, policy_description as content FROM policies WHERE policy_name ILIKE " ++
      sqlQ ("%" ++ term ++ "%") ++ " OR policy_description ILIKE " ++ sqlQ ("%" ++ term ++ "%"))
  else if table_name == "course_info" then
    some ("SELECT " ++ sqlQ "course_info" ++ " as source, title as name, details as content FROM course_info WHERE title ILIKE " ++
      sqlQ ("%" ++ term ++ "%") ++ " OR details ILIKE " ++ sqlQ ("%" ++ term ++ "%") ++
      " OR contact_info ILIKE " ++ sqlQ ("%" ++ term ++ "%") ++ " OR additional_notes ILIKE " ++
      sqlQ ("%" ++ term ++ "%"))
  else Option.none

/-- The course-info keyword list of main.py:358. -/
def courseInfoWords : List String :=
  ["instructor", "teacher", "professor", "contact", "email", "office", "hours", "textbook",
   "book", "mastering", "cost", "price", "buy", "purchase", "class", "schedule", "time",
   "when", "where", "location", "room", "technology", "brightspace", "tophat", "collaborate",
   "support", "tutorial", "ta", "teaching", "assistant", "help", "course", "syllabus",
   "hybrid", "online", "format"]

/-- The stop-word list of main.py:347. -/
def policyStopWords : List String := ["what", "what" ++ apos ++ "s", "policy", "policies"]

/-- The fall-through tail of the router (main.py:382-386). -/
def fallbackSql : List String → String
  | t0 :: _ => "SELECT * FROM " ++ t0 ++ " LIMIT 10;"
  | [] => "SELECT 1;"

/-- Embedding of the pure keyword router `generate_smart_sql_no_schema`
(main.py:333-386). -/
def generate_smart_sql_no_schema (question : String) (table_names : List String) : String :=
  let qc := pyLowerChars question.data
  if table_names.contains "assignments" &&
      anyWordIn ["assignment", "quiz", "test", "exam", "due", "homework"] qc then
    "SELECT * FROM assignments ORDER BY due_date, week;"
  else if table_names.contains "modules" &&
      anyWordIn ["module", "topic", "cover", "subject", "unit"] qc then
    "SELECT * FROM modules ORDER BY block_code, start_week;"
  else if table_names.contains "policies" &&
      anyWordIn ["policy", "rule", "grade", "attendance", "late", "extension", "email"] qc then
    let search_terms := (pySplit qc).filter
      (fun w => w.length > 3 && !(policyStopWords.contains ⟨w⟩))
    if containsSub (("email").data) qc then policiesTermSql "email"
    else
      match search_terms with
      | t :: _ => policiesTermSql ⟨t⟩
      | [] =>
        "SELECT policy_category, policy_name, policy_description, details, specific_rules FROM policies ORDER BY policy_category, policy_name;"
  else if table_names.contains "course_info" && anyWordIn courseInfoWords qc then
    "SELECT * FROM course_info ORDER BY info_category, info_type;"
  else
    let search_terms := (pySplit qc).filter (fun w => w.length > 3)
    match search_terms with
    | t :: _ =>
      match table_names with
      | [] => fallbackSql table_names
      | _ :: _ =>
        let union_queries := table_names.filterMap (unionPiece ⟨t⟩)
        match union_queries with
        | [] => fallbackSql table_names
        | _ :: _ => String.intercalate " UNION ALL " union_queries ++ ";"
    | [] => fallbackSql table_names

/-- Table-name extraction of main.py:297-299. -/
def extractTableNames (tables_data : PyValue) : List String :=
  match tables_data with
  | PyValue.list ts =>
    ts.filterMap (fun t =>
      if dictGet t (("type").data) = some (PyValue.str (("table").data)) ∨
         dictGet t (("type").data) = some (PyValue.str (("BASE TABLE").data)) then
        some (match dictGet t (("name").data) with
              | some (PyValue.str s) => (⟨s⟩ : String)
              | _ => "")
      else Option.none)
  | _ => []

/-- The final formatting prompt of main.py:312-316 (`json.dumps` of the
SQL data modelled by the JSON printer). -/
def mkFinalPrompt (question : String) (table_names : List String) (data : PyValue) : String :=
  "Student Question: \"" ++ question ++ "\"\nAvailable Tables: " ++
  String.intercalate ", " table_names ++ "\nSQL Results: " ++ (⟨prV jsonPr data⟩ : String) ++
  "\n\nProvide a clear, conversational answer using the data. Don" ++ apos ++
  "t mention SQL or technical details."

/-- Environment double for the fixed workflow: the two fresh MCP
connections and the formatting LLM call. -/
structure WfEnv where
  mcp1 : MCPEnv
  mcp2 : MCPEnv
  fmt : String → Except String String

/-- The subprocess-unreachable answer of main.py:293. -/
def noAccessMsg : String := "I couldn" ++ apos ++ "t access the database tables."

/-- The no-data answer of main.py:327. -/
def noInfoMsg : String := "I couldn" ++ apos ++ "t find any relevant information for your question."

/-- The caught-exception answer of main.py:280/331. -/
def wfErrorMsg (e : String) : String :=
  "I encountered an error while processing your question: " ++ e

/-- Embedding of `execute_fresh_connection_workflow` (main.py:282-331):
discover tables on one fresh connection, route to SQL with the pure
keyword router, execute on a second fresh connection, format with one
plain LLM call; every failure becomes a user-facing string. -/
def execute_fresh_connection_workflow (env : WfEnv) (question : String) : String × List Ev :=
  let step1 := query_mcp_server env.mcp1 0 Option.none "list_objects" "public" Option.none
  let tables_result := step1.1
  if !(optPyTruthy (dictGet tables_result (("success").data))) ||
     !(optPyTruthy (dictGet tables_result (("data").data))) then
    (noAccessMsg, step1.2)
  else
    let tables_data := (dictGet tables_result (("data").data)).getD PyValue.none
    let table_names := extractTableNames tables_data
    let sql_query := generate_smart_sql_no_schema question table_names
    let step2 := query_mcp_server env.mcp2 1 (some sql_query) "execute_sql" "public" Option.none
    let sql_result := step2.1
    if optPyTruthy (dictGet sql_result (("success").data)) &&
       optPyTruthy (dictGet sql_result (("data").data)) then
      let final_prompt := mkFinalPrompt question table_names
        ((dictGet sql_result (("data").data)).getD PyValue.none)
      match env.fmt final_prompt with
      | Except.ok text => (text, step1.2 ++ step2.2 ++ [Ev.llmCall false])
      | Except.error e => (wfErrorMsg e, step1.2 ++ step2.2 ++ [Ev.llmCall false])
    else
      (noInfoMsg, step1.2 ++ step2.2)

/-- Embedding of `claude_orchestrated_query_optimized` (main.py:268-280):
a try/except shell around the workflow, whose handler is unreachable since
the workflow catches its own exceptions. -/
def claude_orchestrated_query_optimized (env : WfEnv) (question : String) : String × List Ev :=
  execute_fresh_connection_workflow env question

/-- Embedding of `claude_orchestrated_query` (main.py:397-399). -/
def claude_orchestrated_query (env : WfEnv) (question : String) : String × List Ev :=
  claude_orchestrated_query_optimized env question

/-- The `/ask` response model (main.py:125-128). -/
structure AnswerResponse where
  answer : String
  sources : List String
  course_data : List PyValue
deriving DecidableEq

/-- An HTTP outcome of the `/ask` endpoint. -/
inductive HTTPResult where
  | ok (r : AnswerResponse)
  | error (status : Nat) (detail : String)
deriving DecidableEq

/-- Embedding of the `/ask` endpoint `ask_question` (main.py:613-634):
empty/whitespace questions are rejected with a 400 before any external
call; otherwise the fixed workflow produces the answer. -/
def ask_question (env : WfEnv) (question : String) : HTTPResult × List Ev :=
  if question = "" ∨ pyStrip question.data = [] then
    (HTTPResult.error 400 "Question cannot be empty", [])
  else
    let r := claude_orchestrated_query env question
    (HTTPResult.ok { answer := r.1, sources := ["Claude + Postgres MCP integration"], course_data := [] }, r.2)

-- ### Fixtures for the adversarial-model and transcript counterexamples

/-- A benign MCP environment: connections succeed, every tool call returns
one empty-list content. -/
def benignEnv : MCPEnv :=
  { connect := ConnOutcome.ok
    call := fun _ _ => CallOutcome.returns ["[]"] }

/-- An MCP environment whose connection establishment always fails. -/
def connFailEnv : MCPEnv :=
  { connect := ConnOutcome.fail "connection refused"
    call := fun _ _ => CallOutcome.returns ["[]"] }

/-- A well-formed `tool_use` response, as an adversarial model double
emits on every turn. -/
def advResp : ModelResponse :=
  { stop_reason := "tool_use"
    content := [ContentBlock.toolUse
      { id := "t1", name := "mcp_list_objects"
        input := PyValue.dict [(("schema_name").data, PyValue.str (("public").data))] }] }

/-- The adversarial model double: every response requests more tool use. -/
def advModel : List Message → ModelResponse := fun _ => advResp

/-- First tool-use response of the transcript counterexample. -/
def cexResp1 : ModelResponse :=
  { stop_reason := "tool_use"
    content := [ContentBlock.toolUse
      { id := "t1", name := "mcp_list_objects"
        input := PyValue.dict [(("schema_name").data, PyValue.str (("public").data))] }] }

/-- Second tool-use response of the transcript counterexample. -/
def cexResp2 : ModelResponse :=
  { stop_reason := "tool_use"
    content := [ContentBlock.toolUse
      { id := "t2", name := "mcp_execute_sql"
        input := PyValue.dict [(("sql").data, PyValue.str (("SELECT 1;").data))] }] }

/-- Model double of the transcript counterexample: requests a second tool
round, then answers once the transcript carries the `t2` result. -/
def cexModel : List Message → ModelResponse := fun msgs =>
  if msgs.any (fun m => match m with
      | Message.toolResult id _ => id == "t2"
      | _ => false) then
    { stop_reason := "end_turn", content := [ContentBlock.text "done"] }
  else cexResp2

/-- The transcript-counterexample run. -/
def c6Run : RunOutcome × List (List Message) × List Ev :=
  process_claude_tool_response benignEnv cexModel 5 0 cexResp1

/-- First transcript submitted in the counterexample run. -/
def c6FirstSub : List Message := (c6Run.2.1.get? 0).getD []

/-- Second transcript submitted in the counterexample run. -/
def c6SecondSub : List Message := (c6Run.2.1.get? 1).getD []

/-- The character map effected by `.replace(chr(39), chr(34))`: a single
quote becomes a double quote, everything else is untouched. -/
def sq2dq (c : Char) : Char := if c = '\'' then '"' else c

/-- An MCP environment whose tool calls return an empty content list
(the `returned no content` path of main.py:230). -/
def emptyContentEnv : MCPEnv :=
  { connect := ConnOutcome.ok
    call := fun _ _ => CallOutcome.returns [] }

/-- A benign workflow environment: both fresh connections behave, the
formatting LLM call answers. -/
def wfBenignEnv : WfEnv :=
  { mcp1 := benignEnv
    mcp2 := benignEnv
    fmt := fun _ => Except.ok "formatted answer" }

-- ### Lemma development

theorem char_ne_of_toNat {c d : Char} (h : c.toNat ≠ d.toNat) : c ≠ d := by
  intro he
  exact h (by rw [he])

theorem char_beq_false_of_toNat {c d : Char} (h : c.toNat ≠ d.toNat) : (c == d) = false := by
  rw [beq_eq_false_iff_ne]
  exact char_ne_of_toNat h

theorem skipWs_cons_false {isW : Char → Bool} {c : Char} (h : isW c = false) (cs : List Char) :
    skipWs isW (c :: cs) = c :: cs := by
  simp [skipWs, h]

theorem headIs_cons (c : Char) (t : List Char) (d : Char) : headIs (c :: t) d = (c == d) := rfl

theorem tailOf_cons (c : Char) (t : List Char) : tailOf (c :: t) = t := rfl

theorem stripPre_append (p rest : List Char) : stripPre p (p ++ rest) = some rest := by
  induction p with
  | nil => rfl
  | cons c cs ih => simp [stripPre, ih]

theorem stripPre_ne_head {a b : Char} {p cs : List Char} (h : b ≠ a) :
    stripPre (a :: p) (b :: cs) = Option.none := by
  simp [stripPre, h]

theorem isDigitCh_bounds {c : Char} (h : isDigitCh c = true) :
    48 ≤ c.toNat ∧ c.toNat ≤ 57 := by
  simpa [isDigitCh] using h

theorem char_beq_false_of_digit {c : Char} (h48 : 48 ≤ c.toNat) (h57 : c.toNat ≤ 57)
    (d : Char) (hd : d.toNat < 48 ∨ 57 < d.toNat) : (c == d) = false := by
  rw [beq_eq_false_iff_ne]
  intro he
  subst he
  omega

theorem char_ne_of_digit {c : Char} (h48 : 48 ≤ c.toNat) (h57 : c.toNat ≤ 57)
    (d : Char) (hd : d.toNat < 48 ∨ 57 < d.toNat) : c ≠ d := by
  intro he
  subst he
  omega

theorem isDigitCh_good {c : Char} (h : isDigitCh c = true) :
    jsonWsChar c = false ∧ pyWsChar c = false ∧ c ≠ '"' ∧ c ≠ '\'' ∧ c ≠ '[' ∧ c ≠ '{' ∧
    c ≠ '-' ∧ c ≠ ']' ∧ c ≠ '}' ∧ c ≠ ',' ∧ c ≠ ':' := by
  obtain ⟨h1, h2⟩ := isDigitCh_bounds h
  refine ⟨?_, ?_, ?_, ?_, ?_, ?_, ?_, ?_, ?_, ?_, ?_⟩
  · simp only [jsonWsChar, Bool.or_eq_false_iff]
    refine ⟨⟨⟨?_, ?_⟩, ?_⟩, ?_⟩ <;> exact char_beq_false_of_digit h1 h2 _ (by decide)
  · simp only [pyWsChar, Bool.or_eq_false_iff]
    refine ⟨⟨⟨⟨⟨?_, ?_⟩, ?_⟩, ?_⟩, ?_⟩, ?_⟩ <;> exact char_beq_false_of_digit h1 h2 _ (by decide)
  all_goals exact char_ne_of_digit h1 h2 _ (by decide)

theorem digitChar_isDigit (d : Nat) : isDigitCh (digitChar d) = true := by
  by_cases h : d < 10
  · interval_cases d <;> decide
  · obtain ⟨n, rfl⟩ : ∃ n, d = n + 10 := ⟨d - 10, by omega⟩
    rfl

theorem digitVal_digitChar {d : Nat} (h : d < 10) : digitVal (digitChar d) = d := by
  interval_cases d <;> rfl

theorem natCharsAux_digits : ∀ fuel n c, c ∈ natCharsAux fuel n → isDigitCh c = true := by
  intro fuel
  induction fuel with
  | zero => intro n c hc; simp [natCharsAux] at hc
  | succ f ih =>
    intro n c hc
    simp only [natCharsAux] at hc
    split at hc
    · simp only [List.mem_singleton] at hc
      exact hc ▸ digitChar_isDigit n
    · rcases List.mem_append.mp hc with h1 | h1
      · exact ih _ _ h1
      · simp only [List.mem_singleton] at h1
        exact h1 ▸ digitChar_isDigit (n % 10)

theorem natChars_digits {n : Nat} {c : Char} (hc : c ∈ natChars n) : isDigitCh c = true :=
  natCharsAux_digits _ _ _ hc

theorem natCharsAux_ne_nil (f n : Nat) : natCharsAux (f + 1) n ≠ [] := by
  simp only [natCharsAux]
  split
  · simp
  · simp

theorem natChars_ne_nil (n : Nat) : natChars n ≠ [] := natCharsAux_ne_nil n n

theorem digitsVal_append_one (ds : List Char) (d : Char) :
    digitsVal (ds ++ [d]) = 10 * digitsVal ds + digitVal d := by
  simp [digitsVal, List.foldl_append]

theorem natCharsAux_val : ∀ fuel n, n < fuel → digitsVal (natCharsAux fuel n) = n := by
  intro fuel
  induction fuel with
  | zero => intro n hn; omega
  | succ f ih =>
    intro n hn
    simp only [natCharsAux]
    split
    · rename_i h
      simp [digitsVal, digitVal_digitChar h]
    · rename_i h
      have hdiv : n / 10 < n := Nat.div_lt_self (by omega) (by omega)
      rw [digitsVal_append_one, ih (n / 10) (by omega), digitVal_digitChar (Nat.mod_lt _ (by omega))]
      omega

theorem natChars_val (n : Nat) : digitsVal (natChars n) = n :=
  natCharsAux_val (n + 1) n (by omega)

theorem takeDigits_append {ds rest : List Char} (hds : ∀ c ∈ ds, isDigitCh c = true)
    (hrest : ∀ c ∈ rest.head?, isDigitCh c = false) :
    takeDigits (ds ++ rest) = (ds, rest) := by
  induction ds with
  | nil =>
    cases rest with
    | nil => rfl
    | cons c t =>
      have hc : isDigitCh c = false := hrest c (by simp)
      simp [takeDigits, hc]
  | cons d ds ih =>
    have hd : isDigitCh d = true := hds d (by simp)
    simp [takeDigits, hd, ih (fun c hc => hds c (by simp [hc]))]

theorem parseNatPart_natChars (n : Nat) (rest : List Char)
    (hrest : ∀ c ∈ rest.head?, isDigitCh c = false) :
    parseNatPart (natChars n ++ rest) = some (n, rest) := by
  unfold parseNatPart
  rw [takeDigits_append (fun c hc => natChars_digits hc) hrest]
  rcases hC : natChars n with _ | ⟨d, t⟩
  · exact absurd hC (natChars_ne_nil n)
  · have hv : digitsVal (natChars n) = n := natChars_val n
    rw [hC] at hv
    simp [hv]

theorem parseStrBodyAux_false_cons (esc : Char → Option Char) (delim c : Char) (X : List Char) :
    parseStrBodyAux esc delim false (c :: X) =
      (if c = delim then some ([], X)
       else if c = '\\' then parseStrBodyAux esc delim true X
       else (parseStrBodyAux esc delim false X).map (fun p => (c :: p.1, p.2))) := rfl

theorem parseStrBodyAux_true_cons (esc : Char → Option Char) (delim e : Char) (X : List Char) :
    parseStrBodyAux esc delim true (e :: X) =
      (esc e).elim Option.none
        (fun d => (parseStrBodyAux esc delim false X).map (fun p => (d :: p.1, p.2))) := rfl

theorem parseStrBody_rt {esc : Char → Option Char} {enc : Char → List Char} {delim : Char}
    (hdelim : delim ≠ '\\')
    (hcompat : ∀ c, (enc c = [c] ∧ c ≠ delim ∧ c ≠ '\\') ∨ (∃ e, enc c = ['\\', e] ∧ esc e = some c))
    (s rest : List Char) :
    parseStrBody esc delim (escBody enc s ++ (delim :: rest)) = some (s, rest) := by
  unfold parseStrBody
  induction s with
  | nil =>
    show parseStrBodyAux esc delim false (delim :: rest) = some ([], rest)
    rw [parseStrBodyAux_false_cons, if_pos rfl]
  | cons c cs ih =>
    rcases hcompat c with ⟨h1, h2, h3⟩ | ⟨e, h1, h2⟩
    · simp only [escBody, h1, List.cons_append, List.singleton_append, List.nil_append,
        List.append_assoc]
      rw [parseStrBodyAux_false_cons, if_neg h2, if_neg h3, ih]
      rfl
    · simp only [escBody, h1, List.cons_append, List.singleton_append, List.nil_append,
        List.append_assoc]
      rw [parseStrBodyAux_false_cons, if_neg (Ne.symm hdelim), if_pos rfl,
        parseStrBodyAux_true_cons, h2, ih]
      rfl

theorem escJ_compat :
    ∀ c, (escJ c = [c] ∧ c ≠ '"' ∧ c ≠ '\\') ∨ (∃ e, escJ c = ['\\', e] ∧ escJTab e = some c) := by
  intro c
  simp only [escJ]
  split_ifs with h1 h2 h3 h4 h5
  · exact Or.inr ⟨'"', rfl, by rw [h1]; rfl⟩
  · exact Or.inr ⟨'\\', rfl, by rw [h2]; rfl⟩
  · exact Or.inr ⟨'n', rfl, by rw [h3]; rfl⟩
  · exact Or.inr ⟨'t', rfl, by rw [h4]; rfl⟩
  · exact Or.inr ⟨'r', rfl, by rw [h5]; rfl⟩
  · exact Or.inl ⟨rfl, h1, h2⟩

theorem escP_compat :
    ∀ c, (escP c = [c] ∧ c ≠ '\'' ∧ c ≠ '\\') ∨ (∃ e, escP c = ['\\', e] ∧ escPTab e = some c) := by
  intro c
  simp only [escP]
  split_ifs with h1 h2 h3 h4 h5
  · exact Or.inr ⟨'\'', rfl, by rw [h1]; rfl⟩
  · exact Or.inr ⟨'\\', rfl, by rw [h2]; rfl⟩
  · exact Or.inr ⟨'n', rfl, by rw [h3]; rfl⟩
  · exact Or.inr ⟨'t', rfl, by rw [h4]; rfl⟩
  · exact Or.inr ⟨'r', rfl, by rw [h5]; rfl⟩
  · exact Or.inl ⟨rfl, h1, h2⟩

theorem parseStrBody_rt_json (s rest : List Char) :
    parseStrBody escJTab '"' (escBody escJ s ++ ('"' :: rest)) = some (s, rest) :=
  parseStrBody_rt (by decide) escJ_compat s rest

theorem parseStrBody_rt_py (s rest : List Char) :
    parseStrBody escPTab '\'' (escBody escP s ++ ('\'' :: rest)) = some (s, rest) :=
  parseStrBody_rt (by decide) escP_compat s rest

-- Step equations of the fueled parsers (definitional).

theorem parseVal_succ (cfg : PCfg) (fuel : Nat) (cs : List Char) :
    parseVal cfg (fuel + 1) cs =
      (match skipWs cfg.ws cs with
       | [] => Option.none
       | c :: rest =>
         if c = '"' then (parseStrBody cfg.esc '"' rest).map (fun p => (PyValue.str p.1, p.2))
         else if c = '\'' then
           if cfg.single then (parseStrBody cfg.esc '\'' rest).map (fun p => (PyValue.str p.1, p.2))
           else Option.none
         else if c = '[' then
           if headIs (skipWs cfg.ws rest) ']' then some (PyValue.list [], tailOf (skipWs cfg.ws rest))
           else (parseElems cfg fuel (skipWs cfg.ws rest)).map (fun p => (PyValue.list p.1, p.2))
         else if c = '{' then
           if headIs (skipWs cfg.ws rest) '}' then some (PyValue.dict [], tailOf (skipWs cfg.ws rest))
           else (parseEntries cfg fuel (skipWs cfg.ws rest)).map (fun p => (PyValue.dict p.1, p.2))
         else if c = '-' then (parseNatPart rest).map (fun p => (PyValue.int (-(p.1 : Int)), p.2))
         else if isDigitCh c then (parseNatPart (c :: rest)).map (fun p => (PyValue.int (p.1 : Int), p.2))
         else
           (stripPre cfg.kwTrue (c :: rest)).elim
             ((stripPre cfg.kwFalse (c :: rest)).elim
               ((stripPre cfg.kwNone (c :: rest)).elim Option.none
                 (fun r => some (PyValue.none, r)))
               (fun r => some (PyValue.bool false, r)))
             (fun r => some (PyValue.bool true, r))) := rfl

theorem parseElems_succ (cfg : PCfg) (fuel : Nat) (cs : List Char) :
    parseElems cfg (fuel + 1) cs =
      (parseVal cfg fuel cs).bind (fun p =>
        if headIs (skipWs cfg.ws p.2) ',' then
          (parseElems cfg fuel (tailOf (skipWs cfg.ws p.2))).map (fun q => (p.1 :: q.1, q.2))
        else if headIs (skipWs cfg.ws p.2) ']' then some ([p.1], tailOf (skipWs cfg.ws p.2))
        else Option.none) := rfl

theorem parseEntries_succ (cfg : PCfg) (fuel : Nat) (cs : List Char) :
    parseEntries cfg (fuel + 1) cs =
      (parseKey cfg (skipWs cfg.ws cs)).bind (fun kp =>
        if headIs (skipWs cfg.ws kp.2) ':' then
          (parseVal cfg fuel (tailOf (skipWs cfg.ws kp.2))).bind (fun vp =>
            if headIs (skipWs cfg.ws vp.2) ',' then
              (parseEntries cfg fuel (tailOf (skipWs cfg.ws vp.2))).map
                (fun q => ((kp.1, vp.1) :: q.1, q.2))
            else if headIs (skipWs cfg.ws vp.2) '}' then
              some ([(kp.1, vp.1)], tailOf (skipWs cfg.ws vp.2))
            else Option.none)
        else Option.none) := rfl

theorem parseVal_cons (cfg : PCfg) (fuel : Nat) (c : Char) (cs : List Char) (hws : cfg.ws c = false) :
    parseVal cfg (fuel + 1) (c :: cs) =
      (if c = '"' then (parseStrBody cfg.esc '"' cs).map (fun p => (PyValue.str p.1, p.2))
       else if c = '\'' then
         if cfg.single then (parseStrBody cfg.esc '\'' cs).map (fun p => (PyValue.str p.1, p.2))
         else Option.none
       else if c = '[' then
         if headIs (skipWs cfg.ws cs) ']' then some (PyValue.list [], tailOf (skipWs cfg.ws cs))
         else (parseElems cfg fuel (skipWs cfg.ws cs)).map (fun p => (PyValue.list p.1, p.2))
       else if c = '{' then
         if headIs (skipWs cfg.ws cs) '}' then some (PyValue.dict [], tailOf (skipWs cfg.ws cs))
         else (parseEntries cfg fuel (skipWs cfg.ws cs)).map (fun p => (PyValue.dict p.1, p.2))
       else if c = '-' then (parseNatPart cs).map (fun p => (PyValue.int (-(p.1 : Int)), p.2))
       else if isDigitCh c then (parseNatPart (c :: cs)).map (fun p => (PyValue.int (p.1 : Int), p.2))
       else
         (stripPre cfg.kwTrue (c :: cs)).elim
           ((stripPre cfg.kwFalse (c :: cs)).elim
             ((stripPre cfg.kwNone (c :: cs)).elim Option.none
               (fun r => some (PyValue.none, r)))
             (fun r => some (PyValue.bool false, r)))
           (fun r => some (PyValue.bool true, r))) := by
  rw [parseVal_succ, skipWs_cons_false hws]

-- Leading whitespace is absorbed by the parsers.

theorem parseVal_ws {cfg : PCfg} {c : Char} (h : cfg.ws c = true) (fuel : Nat) (cs : List Char) :
    parseVal cfg fuel (c :: cs) = parseVal cfg fuel cs := by
  cases fuel with
  | zero => rfl
  | succ f =>
    rw [parseVal_succ cfg f (c :: cs), parseVal_succ cfg f cs,
      show skipWs cfg.ws (c :: cs) = skipWs cfg.ws cs from by simp [skipWs, h]]

theorem parseElems_ws {cfg : PCfg} {c : Char} (h : cfg.ws c = true) (fuel : Nat) (cs : List Char) :
    parseElems cfg fuel (c :: cs) = parseElems cfg fuel cs := by
  cases fuel with
  | zero => rfl
  | succ f =>
    rw [parseElems_succ cfg f (c :: cs), parseElems_succ cfg f cs, parseVal_ws h f cs]

theorem parseEntries_ws {cfg : PCfg} {c : Char} (h : cfg.ws c = true) (fuel : Nat) (cs : List Char) :
    parseEntries cfg fuel (c :: cs) = parseEntries cfg fuel cs := by
  cases fuel with
  | zero => rfl
  | succ f =>
    rw [parseEntries_succ cfg f (c :: cs), parseEntries_succ cfg f cs,
      show skipWs cfg.ws (c :: cs) = skipWs cfg.ws cs from by simp [skipWs, h]]

-- Heads of printed values.

theorem intChars_head (n : Int) :
    ∃ c t, intChars n = c :: t ∧
      jsonWsChar c = false ∧ pyWsChar c = false ∧ c ≠ ']' ∧ c ≠ '}' := by
  by_cases hn : n < 0
  · exact ⟨'-', natChars n.natAbs, by simp [intChars, hn], by decide, by decide, by decide, by decide⟩
  · rcases hC : natChars n.natAbs with _ | ⟨d, t⟩
    · exact absurd hC (natChars_ne_nil _)
    · have hd : isDigitCh d = true := natChars_digits (by rw [hC]; simp)
      obtain ⟨g1, g2, _, _, _, _, _, g8, g9, _, _⟩ := isDigitCh_good hd
      exact ⟨d, t, by simp [intChars, hn, hC], g1, g2, g8, g9⟩

theorem prV_head_json (v : PyValue) :
    ∃ c t, prV jsonPr v = c :: t ∧
      jsonWsChar c = false ∧ pyWsChar c = false ∧ c ≠ ']' ∧ c ≠ '}' := by
  cases v with
  | int n => simpa [prV] using intChars_head n
  | str s =>
    exact ⟨'"', escBody escJ s ++ ['"'], rfl, by decide, by decide, by decide, by decide⟩
  | bool b =>
    cases b
    · exact ⟨'f', ['a', 'l', 's', 'e'], rfl, by decide, by decide, by decide, by decide⟩
    · exact ⟨'t', ['r', 'u', 'e'], rfl, by decide, by decide, by decide, by decide⟩
  | none => exact ⟨'n', ['u', 'l', 'l'], rfl, by decide, by decide, by decide, by decide⟩
  | list xs => exact ⟨'[', prL jsonPr xs, rfl, by decide, by decide, by decide, by decide⟩
  | dict xs => exact ⟨'{', prD jsonPr xs, rfl, by decide, by decide, by decide, by decide⟩

theorem prV_head_py (v : PyValue) :
    ∃ c t, prV pyPr v = c :: t ∧
      jsonWsChar c = false ∧ pyWsChar c = false ∧ c ≠ ']' ∧ c ≠ '}' := by
  cases v with
  | int n => simpa [prV] using intChars_head n
  | str s =>
    exact ⟨'\'', escBody escP s ++ ['\''], rfl, by decide, by decide, by decide, by decide⟩
  | bool b =>
    cases b
    · exact ⟨'F', ['a', 'l', 's', 'e'], rfl, by decide, by decide, by decide, by decide⟩
    · exact ⟨'T', ['r', 'u', 'e'], rfl, by decide, by decide, by decide, by decide⟩
  | none => exact ⟨'N', ['o', 'n', 'e'], rfl, by decide, by decide, by decide, by decide⟩
  | list xs => exact ⟨'[', prL pyPr xs, rfl, by decide, by decide, by decide, by decide⟩
  | dict xs => exact ⟨'{', prD pyPr xs, rfl, by decide, by decide, by decide, by decide⟩

theorem prV_head_mixed (v : PyValue) :
    ∃ c t, prV mixedPr v = c :: t ∧
      jsonWsChar c = false ∧ pyWsChar c = false ∧ c ≠ ']' ∧ c ≠ '}' := by
  cases v with
  | int n => simpa [prV] using intChars_head n
  | str s =>
    exact ⟨'\'', escBody escP s ++ ['\''], rfl, by decide, by decide, by decide, by decide⟩
  | bool b =>
    cases b
    · exact ⟨'f', ['a', 'l', 's', 'e'], rfl, by decide, by decide, by decide, by decide⟩
    · exact ⟨'t', ['r', 'u', 'e'], rfl, by decide, by decide, by decide, by decide⟩
  | none => exact ⟨'n', ['u', 'l', 'l'], rfl, by decide, by decide, by decide, by decide⟩
  | list xs => exact ⟨'[', prL mixedPr xs, rfl, by decide, by decide, by decide, by decide⟩
  | dict xs => exact ⟨'{', prD mixedPr xs, rfl, by decide, by decide, by decide, by decide⟩

theorem headNone_nodigit : ∀ c ∈ ([] : List Char).head?, isDigitCh c = false := by
  intro c hc
  simp at hc

theorem headCons_nodigit {c : Char} (h : isDigitCh c = false) (t : List Char) :
    ∀ x ∈ (c :: t).head?, isDigitCh x = false := by
  intro x hx
  simp only [List.head?, Option.mem_def, Option.some.injEq] at hx
  exact hx ▸ h

-- Projection facts of the two parser configurations.

theorem jsonCfg_esc : jsonCfg.esc = escJTab := rfl

theorem jsonCfg_ws : jsonCfg.ws = jsonWsChar := rfl

theorem pyCfg_esc : pyCfg.esc = escPTab := rfl

theorem pyCfg_ws : pyCfg.ws = pyWsChar := rfl

theorem parseVal_digit (cfg : PCfg) (fuel : Nat) (c : Char) (cs : List Char)
    (hwsf : cfg.ws c = false) (hd : isDigitCh c = true) :
    parseVal cfg (fuel + 1) (c :: cs) =
      (parseNatPart (c :: cs)).map (fun p => (PyValue.int (p.1 : Int), p.2)) := by
  obtain ⟨_, _, g3, g4, g5, g6, g7, _, _, _, _⟩ := isDigitCh_good hd
  rw [parseVal_cons _ _ _ _ hwsf, if_neg g3, if_neg g4, if_neg g5, if_neg g6, if_neg g7,
    if_pos hd]

theorem parseVal_kw (cfg : PCfg) (fuel : Nat) (c : Char) (cs : List Char)
    (hws : cfg.ws c = false) (h1 : c ≠ '"') (h2 : c ≠ '\'') (h3 : c ≠ '[') (h4 : c ≠ '{')
    (h5 : c ≠ '-') (h6 : isDigitCh c = false) :
    parseVal cfg (fuel + 1) (c :: cs) =
      (stripPre cfg.kwTrue (c :: cs)).elim
        ((stripPre cfg.kwFalse (c :: cs)).elim
          ((stripPre cfg.kwNone (c :: cs)).elim Option.none
            (fun r => some (PyValue.none, r)))
          (fun r => some (PyValue.bool false, r)))
        (fun r => some (PyValue.bool true, r)) := by
  rw [parseVal_cons _ _ _ _ hws, if_neg h1, if_neg h2, if_neg h3, if_neg h4, if_neg h5,
    if_neg (by simp [h6])]

/-- `prL` always begins with the print of its first element. -/
theorem prL_cons_eq (pc : PrCfg) (x : PyValue) (t : List PyValue) :
    ∃ X, prL pc (x :: t) = prV pc x ++ X := by
  cases t with
  | nil => exact ⟨[']'], rfl⟩
  | cons y t' => exact ⟨',' :: ' ' :: prL pc (y :: t'), rfl⟩

/-- The int case of the round trips, shared by all printers. -/
theorem parseVal_rt_int (cfg : PCfg) (hq1 : cfg.ws '-' = false)
    (hq2 : ∀ c, isDigitCh c = true → cfg.ws c = false)
    (n : Int) (f : Nat) (rest : List Char)
    (hrest : ∀ c ∈ rest.head?, isDigitCh c = false) :
    parseVal cfg (f + 1) (intChars n ++ rest) = some (PyValue.int n, rest) := by
  by_cases hn : n < 0
  · rw [show intChars n ++ rest = '-' :: (natChars n.natAbs ++ rest) from by simp [intChars, hn],
      parseVal_cons _ _ _ _ hq1, if_neg (by decide), if_neg (by decide), if_neg (by decide),
      if_neg (by decide), if_pos rfl, parseNatPart_natChars _ _ hrest]
    have hval : (-(n.natAbs : Int)) = n := by omega
    rw [show Option.map (fun p => (PyValue.int (-(p.1 : Int)), p.2))
        (some (n.natAbs, rest)) = some (PyValue.int (-(n.natAbs : Int)), rest) from rfl, hval]
  · rcases hC : natChars n.natAbs with _ | ⟨d, t⟩
    · exact absurd hC (natChars_ne_nil _)
    · have hd : isDigitCh d = true := natChars_digits (by rw [hC]; simp)
      rw [show intChars n ++ rest = d :: (t ++ rest) from by simp [intChars, hn, hC],
        parseVal_digit _ _ _ _ (hq2 d hd) hd,
        show d :: (t ++ rest) = natChars n.natAbs ++ rest from by rw [hC]; rfl,
        parseNatPart_natChars _ _ hrest]
      have hval : ((n.natAbs : Int)) = n := by omega
      rw [show Option.map (fun p => (PyValue.int (p.1 : Int), p.2))
          (some (n.natAbs, rest)) = some (PyValue.int (n.natAbs : Int), rest) from rfl, hval]

/-- Round trip of the strict-JSON printer through the `json.loads` model. -/
theorem parseVal_rt_json :
    ∀ v : PyValue, ∀ fuel rest, PyValue.sz v ≤ fuel →
      (∀ c ∈ rest.head?, isDigitCh c = false) →
      parseVal jsonCfg fuel (prV jsonPr v ++ rest) = some (v, rest) := by
  intro v
  induction v using PyValue.my_ind with
  | hint n =>
    intro fuel rest hsz hrest
    cases fuel with
    | zero => simp [PyValue.sz] at hsz
    | succ f =>
      exact parseVal_rt_int jsonCfg (by decide) (fun c hc => (isDigitCh_good hc).1) n f rest hrest
  | hstr s =>
    intro fuel rest hsz hrest
    cases fuel with
    | zero => simp [PyValue.sz] at hsz
    | succ f =>
      rw [show prV jsonPr (PyValue.str s) ++ rest = '"' :: (escBody escJ s ++ ('"' :: rest)) from
          by simp [prV, jsonPr],
        parseVal_cons _ _ _ _ (by decide), if_pos rfl, jsonCfg_esc, parseStrBody_rt_json]
      rfl
  | hbool b =>
    intro fuel rest hsz hrest
    cases fuel with
    | zero => simp [PyValue.sz] at hsz
    | succ f =>
      cases b
      · rw [show prV jsonPr (PyValue.bool false) ++ rest = 'f' :: ('a' :: 'l' :: 's' :: 'e' :: rest)
            from rfl,
          parseVal_kw _ _ _ _ (by decide) (by decide) (by decide) (by decide) (by decide)
            (by decide) (by decide),
          show stripPre jsonCfg.kwTrue ('f' :: 'a' :: 'l' :: 's' :: 'e' :: rest) = Option.none from
            stripPre_ne_head (by decide),
          show 'f' :: 'a' :: 'l' :: 's' :: 'e' :: rest = jsonCfg.kwFalse ++ rest from rfl,
          stripPre_append]
        rfl
      · rw [show prV jsonPr (PyValue.bool true) ++ rest = 't' :: ('r' :: 'u' :: 'e' :: rest)
            from rfl,
          parseVal_kw _ _ _ _ (by decide) (by decide) (by decide) (by decide) (by decide)
            (by decide) (by decide),
          show 't' :: 'r' :: 'u' :: 'e' :: rest = jsonCfg.kwTrue ++ rest from rfl,
          stripPre_append]
        rfl
  | hnone =>
    intro fuel rest hsz hrest
    cases fuel with
    | zero => simp [PyValue.sz] at hsz
    | succ f =>
      rw [show prV jsonPr PyValue.none ++ rest = 'n' :: ('u' :: 'l' :: 'l' :: rest) from rfl,
        parseVal_kw _ _ _ _ (by decide) (by decide) (by decide) (by decide) (by decide)
          (by decide) (by decide),
        show stripPre jsonCfg.kwTrue ('n' :: 'u' :: 'l' :: 'l' :: rest) = Option.none from
          stripPre_ne_head (by decide),
        show stripPre jsonCfg.kwFalse ('n' :: 'u' :: 'l' :: 'l' :: rest) = Option.none from
          stripPre_ne_head (by decide),
        show 'n' :: 'u' :: 'l' :: 'l' :: rest = jsonCfg.kwNone ++ rest from rfl,
        stripPre_append]
      rfl
  | hlist xs ihm =>
    intro fuel rest hsz hrest
    have main : ∀ (t : List PyValue) (x : PyValue) (f : Nat) (rs : List Char),
        (∀ z ∈ x :: t, ∀ fz rz, PyValue.sz z ≤ fz → (∀ c ∈ rz.head?, isDigitCh c = false) →
          parseVal jsonCfg fz (prV jsonPr z ++ rz) = some (z, rz)) →
        PyValue.szL (x :: t) ≤ f →
        parseElems jsonCfg f (prL jsonPr (x :: t) ++ rs) = some (x :: t, rs) := by
      intro t
      induction t with
      | nil =>
        intro x f rs hmem hszl
        cases f with
        | zero => simp only [PyValue.szL] at hszl; omega
        | succ g =>
          have hg : PyValue.sz x ≤ g := by simp only [PyValue.szL] at hszl; omega
          rw [parseElems_succ,
            show prL jsonPr [x] ++ rs = prV jsonPr x ++ (']' :: rs) from by simp [prL],
            hmem x (by simp) g (']' :: rs) hg (headCons_nodigit (by decide) _)]
          simp only [Option.some_bind]
          rw [show skipWs jsonCfg.ws (']' :: rs) = ']' :: rs from
              skipWs_cons_false (by decide) _]
          simp [headIs, tailOf]
      | cons y t' ih =>
        intro x f rs hmem hszl
        cases f with
        | zero => simp only [PyValue.szL] at hszl; omega
        | succ g =>
          have hg1 : PyValue.sz x ≤ g := by
            simp only [PyValue.szL] at hszl
            omega
          have hg2 : PyValue.szL (y :: t') ≤ g := by
            simp only [PyValue.szL] at hszl ⊢
            omega
          rw [parseElems_succ,
            show prL jsonPr (x :: y :: t') ++ rs =
                prV jsonPr x ++ (',' :: ' ' :: (prL jsonPr (y :: t') ++ rs)) from by simp [prL],
            hmem x (by simp) g _ hg1 (headCons_nodigit (by decide) _)]
          simp only [Option.some_bind]
          rw [show skipWs jsonCfg.ws (',' :: ' ' :: (prL jsonPr (y :: t') ++ rs)) =
              ',' :: ' ' :: (prL jsonPr (y :: t') ++ rs) from skipWs_cons_false (by decide) _]
          rw [show headIs (',' :: ' ' :: (prL jsonPr (y :: t') ++ rs)) ',' = true from rfl,
            if_pos rfl,
            show tailOf (',' :: ' ' :: (prL jsonPr (y :: t') ++ rs)) =
              ' ' :: (prL jsonPr (y :: t') ++ rs) from rfl,
            parseElems_ws (by decide),
            ih y g rs (fun z hz => hmem z (List.mem_cons_of_mem x hz)) hg2]
          rfl
    cases xs with
    | nil =>
      cases fuel with
      | zero => simp [PyValue.sz] at hsz
      | succ f =>
        rw [show prV jsonPr (PyValue.list []) ++ rest = '[' :: (']' :: rest) from rfl,
          parseVal_cons _ _ _ _ (by decide), if_neg (by decide), if_neg (by decide), if_pos rfl,
          show skipWs jsonCfg.ws (']' :: rest) = ']' :: rest from skipWs_cons_false (by decide) _]
        simp [headIs, tailOf]
    | cons x t =>
      cases fuel with
      | zero => simp [PyValue.sz] at hsz
      | succ f =>
        have hf : PyValue.szL (x :: t) ≤ f := by
          simp only [PyValue.sz] at hsz
          omega
        obtain ⟨X, hX⟩ := prL_cons_eq jsonPr x t
        obtain ⟨c0, t0, hc0, hws0, _, hne0, _⟩ := prV_head_json x
        rw [show prV jsonPr (PyValue.list (x :: t)) ++ rest = '[' :: (prL jsonPr (x :: t) ++ rest)
            from by simp [prV],
          parseVal_cons _ _ _ _ (by decide), if_neg (by decide), if_neg (by decide), if_pos rfl]
        have hskip : skipWs jsonCfg.ws (prL jsonPr (x :: t) ++ rest) =
            prL jsonPr (x :: t) ++ rest := by
          rw [hX, hc0, List.cons_append]
          exact skipWs_cons_false hws0 _
        rw [hskip]
        have hhead : headIs (prL jsonPr (x :: t) ++ rest) ']' = false := by
          rw [hX, hc0, List.cons_append, List.cons_append, headIs_cons]
          exact beq_eq_false_iff_ne.mpr hne0
        rw [hhead, if_neg (by simp), main t x f rest (fun z hz => ihm z hz) hf]
        rfl
  | hdict xs ihm =>
    intro fuel rest hsz hrest
    have main : ∀ (t : List (List Char × PyValue)) (k : List Char) (v : PyValue) (f : Nat)
        (rs : List Char),
        (∀ z ∈ (k, v) :: t, ∀ fz rz, PyValue.sz z.2 ≤ fz →
          (∀ c ∈ rz.head?, isDigitCh c = false) →
          parseVal jsonCfg fz (prV jsonPr z.2 ++ rz) = some (z.2, rz)) →
        PyValue.szD ((k, v) :: t) ≤ f →
        parseEntries jsonCfg f (prD jsonPr ((k, v) :: t) ++ rs) = some ((k, v) :: t, rs) := by
      intro t
      induction t with
      | nil =>
        intro k v f rs hmem hszd
        cases f with
        | zero => simp only [PyValue.szD] at hszd; omega
        | succ g =>
          have hg : PyValue.sz v ≤ g := by simp only [PyValue.szD] at hszd; omega
          rw [parseEntries_succ,
            show prD jsonPr [(k, v)] ++ rs =
              '"' :: (escBody escJ k ++ ('"' :: (':' :: ' ' :: (prV jsonPr v ++ ('}' :: rs))))) from
              by simp [prD, jsonPr],
            show skipWs jsonCfg.ws ('"' ::
                (escBody escJ k ++ ('"' :: (':' :: ' ' :: (prV jsonPr v ++ ('}' :: rs)))))) =
              '"' :: (escBody escJ k ++ ('"' :: (':' :: ' ' :: (prV jsonPr v ++ ('}' :: rs)))))
              from skipWs_cons_false (by decide) _]
          rw [show parseKey jsonCfg ('"' ::
              (escBody escJ k ++ ('"' :: (':' :: ' ' :: (prV jsonPr v ++ ('}' :: rs)))))) =
              parseStrBody jsonCfg.esc '"'
                (escBody escJ k ++ ('"' :: (':' :: ' ' :: (prV jsonPr v ++ ('}' :: rs))))) from
              by simp [parseKey],
            jsonCfg_esc, parseStrBody_rt_json]
          simp only [Option.some_bind]
          rw [show skipWs jsonCfg.ws (':' :: ' ' :: (prV jsonPr v ++ ('}' :: rs))) =
              ':' :: ' ' :: (prV jsonPr v ++ ('}' :: rs)) from skipWs_cons_false (by decide) _]
          rw [show headIs (':' :: ' ' :: (prV jsonPr v ++ ('}' :: rs))) ':' = true from rfl,
            if_pos rfl,
            show tailOf (':' :: ' ' :: (prV jsonPr v ++ ('}' :: rs))) =
              ' ' :: (prV jsonPr v ++ ('}' :: rs)) from rfl,
            parseVal_ws (by decide),
            hmem (k, v) (by simp) g ('}' :: rs) hg (headCons_nodigit (by decide) _)]
          simp only [Option.some_bind]
          rw [show skipWs jsonCfg.ws ('}' :: rs) = '}' :: rs from skipWs_cons_false (by decide) _]
          simp [headIs, tailOf]
      | cons e t' ih =>
        intro k v f rs hmem hszd
        obtain ⟨ek, ev⟩ := e
        cases f with
        | zero => simp only [PyValue.szD] at hszd; omega
        | succ g =>
          have hg1 : PyValue.sz v ≤ g := by
            simp only [PyValue.szD] at hszd
            omega
          have hg2 : PyValue.szD ((ek, ev) :: t') ≤ g := by
            simp only [PyValue.szD] at hszd ⊢
            omega
          rw [parseEntries_succ,
            show prD jsonPr ((k, v) :: (ek, ev) :: t') ++ rs =
              '"' :: (escBody escJ k ++ ('"' :: (':' :: ' ' ::
                (prV jsonPr v ++ (',' :: ' ' :: (prD jsonPr ((ek, ev) :: t') ++ rs)))))) from
              by simp [prD, jsonPr],
            show skipWs jsonCfg.ws ('"' :: (escBody escJ k ++ ('"' :: (':' :: ' ' ::
                (prV jsonPr v ++ (',' :: ' ' :: (prD jsonPr ((ek, ev) :: t') ++ rs))))))) =
              '"' :: (escBody escJ k ++ ('"' :: (':' :: ' ' ::
                (prV jsonPr v ++ (',' :: ' ' :: (prD jsonPr ((ek, ev) :: t') ++ rs)))))) from
              skipWs_cons_false (by decide) _]
          rw [show parseKey jsonCfg ('"' :: (escBody escJ k ++ ('"' :: (':' :: ' ' ::
              (prV jsonPr v ++ (',' :: ' ' :: (prD jsonPr ((ek, ev) :: t') ++ rs))))))) =
              parseStrBody jsonCfg.esc '"' (escBody escJ k ++ ('"' :: (':' :: ' ' ::
              (prV jsonPr v ++ (',' :: ' ' :: (prD jsonPr ((ek, ev) :: t') ++ rs)))))) from
              by simp [parseKey],
            jsonCfg_esc, parseStrBody_rt_json]
          simp only [Option.some_bind]
          rw [show skipWs jsonCfg.ws (':' :: ' ' ::
              (prV jsonPr v ++ (',' :: ' ' :: (prD jsonPr ((ek, ev) :: t') ++ rs)))) =
              ':' :: ' ' :: (prV jsonPr v ++ (',' :: ' ' :: (prD jsonPr ((ek, ev) :: t') ++ rs)))
              from skipWs_cons_false (by decide) _]
          rw [show headIs (':' :: ' ' ::
              (prV jsonPr v ++ (',' :: ' ' :: (prD jsonPr ((ek, ev) :: t') ++ rs)))) ':' = true
              from rfl,
            if_pos rfl,
            show tailOf (':' :: ' ' ::
              (prV jsonPr v ++ (',' :: ' ' :: (prD jsonPr ((ek, ev) :: t') ++ rs)))) =
              ' ' :: (prV jsonPr v ++ (',' :: ' ' :: (prD jsonPr ((ek, ev) :: t') ++ rs)))
              from rfl,
            parseVal_ws (by decide),
            hmem (k, v) (by simp) g _ hg1 (headCons_nodigit (by decide) _)]
          simp only [Option.some_bind]
          rw [show skipWs jsonCfg.ws (',' :: ' ' :: (prD jsonPr ((ek, ev) :: t') ++ rs)) =
              ',' :: ' ' :: (prD jsonPr ((ek, ev) :: t') ++ rs) from
              skipWs_cons_false (by decide) _]
          rw [show headIs (',' :: ' ' :: (prD jsonPr ((ek, ev) :: t') ++ rs)) ',' = true from rfl,
            if_pos rfl,
            show tailOf (',' :: ' ' :: (prD jsonPr ((ek, ev) :: t') ++ rs)) =
              ' ' :: (prD jsonPr ((ek, ev) :: t') ++ rs) from rfl,
            parseEntries_ws (by decide),
            ih ek ev g rs (fun z hz => hmem z (List.mem_cons_of_mem (k, v) hz)) hg2]
          rfl
    cases xs with
    | nil =>
      cases fuel with
      | zero => simp [PyValue.sz] at hsz
      | succ f =>
        rw [show prV jsonPr (PyValue.dict []) ++ rest = '{' :: ('}' :: rest) from rfl,
          parseVal_cons _ _ _ _ (by decide), if_neg (by decide), if_neg (by decide),
          if_neg (by decide), if_pos rfl,
          show skipWs jsonCfg.ws ('}' :: rest) = '}' :: rest from skipWs_cons_false (by decide) _]
        simp [headIs, tailOf]
    | cons e t =>
      obtain ⟨k, v⟩ := e
      cases fuel with
      | zero => simp [PyValue.sz] at hsz
      | succ f =>
        have hf : PyValue.szD ((k, v) :: t) ≤ f := by
          simp only [PyValue.sz] at hsz
          omega
        rw [show prV jsonPr (PyValue.dict ((k, v) :: t)) ++ rest =
            '{' :: (prD jsonPr ((k, v) :: t) ++ rest) from by simp [prV],
          parseVal_cons _ _ _ _ (by decide), if_neg (by decide), if_neg (by decide),
          if_neg (by decide), if_pos rfl]
        have hpd : ∃ Y, prD jsonPr ((k, v) :: t) = '"' :: Y := by
          cases t with
          | nil => exact ⟨escBody escJ k ++ '"' :: ':' :: ' ' :: prV jsonPr v ++ ['}'], by
              simp [prD, jsonPr]⟩
          | cons e2 t2 => exact ⟨escBody escJ k ++ '"' :: ':' :: ' ' :: prV jsonPr v ++
              ',' :: ' ' :: prD jsonPr (e2 :: t2), by
              obtain ⟨k2, v2⟩ := e2
              simp [prD, jsonPr]⟩
        obtain ⟨Y, hY⟩ := hpd
        have hskip : skipWs jsonCfg.ws (prD jsonPr ((k, v) :: t) ++ rest) =
            prD jsonPr ((k, v) :: t) ++ rest := by
          rw [hY, List.cons_append]
          exact skipWs_cons_false (by decide) _
        have hhead : headIs (prD jsonPr ((k, v) :: t) ++ rest) '}' = false := by
          rw [hY, List.cons_append, headIs_cons]
          decide
        rw [hskip, hhead, if_neg (by simp),
          main t k v f rest (fun z hz => ihm z hz) hf]
        rfl

/-- Round trip of the Python native-literal printer through the
`ast.literal_eval` model. -/
theorem parseVal_rt_py :
    ∀ v : PyValue, ∀ fuel rest, PyValue.sz v ≤ fuel →
      (∀ c ∈ rest.head?, isDigitCh c = false) →
      parseVal pyCfg fuel (prV pyPr v ++ rest) = some (v, rest) := by
  intro v
  induction v using PyValue.my_ind with
  | hint n =>
    intro fuel rest hsz hrest
    cases fuel with
    | zero => simp [PyValue.sz] at hsz
    | succ f =>
      exact parseVal_rt_int pyCfg (by decide) (fun c hc => (isDigitCh_good hc).2.1) n f rest hrest
  | hstr s =>
    intro fuel rest hsz hrest
    cases fuel with
    | zero => simp [PyValue.sz] at hsz
    | succ f =>
      rw [show prV pyPr (PyValue.str s) ++ rest = '\'' :: (escBody escP s ++ ('\'' :: rest)) from
          by simp [prV, pyPr],
        parseVal_cons _ _ _ _ (by decide), if_neg (by decide), if_pos rfl,
        if_pos (show pyCfg.single = true from rfl), pyCfg_esc, parseStrBody_rt_py]
      rfl
  | hbool b =>
    intro fuel rest hsz hrest
    cases fuel with
    | zero => simp [PyValue.sz] at hsz
    | succ f =>
      cases b
      · rw [show prV pyPr (PyValue.bool false) ++ rest = 'F' :: ('a' :: 'l' :: 's' :: 'e' :: rest)
            from rfl,
          parseVal_kw _ _ _ _ (by decide) (by decide) (by decide) (by decide) (by decide)
            (by decide) (by decide),
          show stripPre pyCfg.kwTrue ('F' :: 'a' :: 'l' :: 's' :: 'e' :: rest) = Option.none from
            stripPre_ne_head (by decide),
          show 'F' :: 'a' :: 'l' :: 's' :: 'e' :: rest = pyCfg.kwFalse ++ rest from rfl,
          stripPre_append]
        rfl
      · rw [show prV pyPr (PyValue.bool true) ++ rest = 'T' :: ('r' :: 'u' :: 'e' :: rest)
            from rfl,
          parseVal_kw _ _ _ _ (by decide) (by decide) (by decide) (by decide) (by decide)
            (by decide) (by decide),
          show 'T' :: 'r' :: 'u' :: 'e' :: rest = pyCfg.kwTrue ++ rest from rfl,
          stripPre_append]
        rfl
  | hnone =>
    intro fuel rest hsz hrest
    cases fuel with
    | zero => simp [PyValue.sz] at hsz
    | succ f =>
      rw [show prV pyPr PyValue.none ++ rest = 'N' :: ('o' :: 'n' :: 'e' :: rest) from rfl,
        parseVal_kw _ _ _ _ (by decide) (by decide) (by decide) (by decide) (by decide)
          (by decide) (by decide),
        show stripPre pyCfg.kwTrue ('N' :: 'o' :: 'n' :: 'e' :: rest) = Option.none from
          stripPre_ne_head (by decide),
        show stripPre pyCfg.kwFalse ('N' :: 'o' :: 'n' :: 'e' :: rest) = Option.none from
          stripPre_ne_head (by decide),
        show 'N' :: 'o' :: 'n' :: 'e' :: rest = pyCfg.kwNone ++ rest from rfl,
        stripPre_append]
      rfl
  | hlist xs ihm =>
    intro fuel rest hsz hrest
    have main : ∀ (t : List PyValue) (x : PyValue) (f : Nat) (rs : List Char),
        (∀ z ∈ x :: t, ∀ fz rz, PyValue.sz z ≤ fz → (∀ c ∈ rz.head?, isDigitCh c = false) →
          parseVal pyCfg fz (prV pyPr z ++ rz) = some (z, rz)) →
        PyValue.szL (x :: t) ≤ f →
        parseElems pyCfg f (prL pyPr (x :: t) ++ rs) = some (x :: t, rs) := by
      intro t
      induction t with
      | nil =>
        intro x f rs hmem hszl
        cases f with
        | zero => simp only [PyValue.szL] at hszl; omega
        | succ g =>
          have hg : PyValue.sz x ≤ g := by simp only [PyValue.szL] at hszl; omega
          rw [parseElems_succ,
            show prL pyPr [x] ++ rs = prV pyPr x ++ (']' :: rs) from by simp [prL],
            hmem x (by simp) g (']' :: rs) hg (headCons_nodigit (by decide) _)]
          simp only [Option.some_bind]
          rw [show skipWs pyCfg.ws (']' :: rs) = ']' :: rs from
              skipWs_cons_false (by decide) _]
          simp [headIs, tailOf]
      | cons y t' ih =>
        intro x f rs hmem hszl
        cases f with
        | zero => simp only [PyValue.szL] at hszl; omega
        | succ g =>
          have hg1 : PyValue.sz x ≤ g := by
            simp only [PyValue.szL] at hszl
            omega
          have hg2 : PyValue.szL (y :: t') ≤ g := by
            simp only [PyValue.szL] at hszl ⊢
            omega
          rw [parseElems_succ,
            show prL pyPr (x :: y :: t') ++ rs =
                prV pyPr x ++ (',' :: ' ' :: (prL pyPr (y :: t') ++ rs)) from by simp [prL],
            hmem x (by simp) g _ hg1 (headCons_nodigit (by decide) _)]
          simp only [Option.some_bind]
          rw [show skipWs pyCfg.ws (',' :: ' ' :: (prL pyPr (y :: t') ++ rs)) =
              ',' :: ' ' :: (prL pyPr (y :: t') ++ rs) from skipWs_cons_false (by decide) _]
          rw [show headIs (',' :: ' ' :: (prL pyPr (y :: t') ++ rs)) ',' = true from rfl,
            if_pos rfl,
            show tailOf (',' :: ' ' :: (prL pyPr (y :: t') ++ rs)) =
              ' ' :: (prL pyPr (y :: t') ++ rs) from rfl,
            parseElems_ws (by decide),
            ih y g rs (fun z hz => hmem z (List.mem_cons_of_mem x hz)) hg2]
          rfl
    cases xs with
    | nil =>
      cases fuel with
      | zero => simp [PyValue.sz] at hsz
      | succ f =>
        rw [show prV pyPr (PyValue.list []) ++ rest = '[' :: (']' :: rest) from rfl,
          parseVal_cons _ _ _ _ (by decide), if_neg (by decide), if_neg (by decide), if_pos rfl,
          show skipWs pyCfg.ws (']' :: rest) = ']' :: rest from skipWs_cons_false (by decide) _]
        simp [headIs, tailOf]
    | cons x t =>
      cases fuel with
      | zero => simp [PyValue.sz] at hsz
      | succ f =>
        have hf : PyValue.szL (x :: t) ≤ f := by
          simp only [PyValue.sz] at hsz
          omega
        obtain ⟨X, hX⟩ := prL_cons_eq pyPr x t
        obtain ⟨c0, t0, hc0, _, hws0, hne0, _⟩ := prV_head_py x
        rw [show prV pyPr (PyValue.list (x :: t)) ++ rest = '[' :: (prL pyPr (x :: t) ++ rest)
            from by simp [prV],
          parseVal_cons _ _ _ _ (by decide), if_neg (by decide), if_neg (by decide), if_pos rfl]
        have hskip : skipWs pyCfg.ws (prL pyPr (x :: t) ++ rest) =
            prL pyPr (x :: t) ++ rest := by
          rw [hX, hc0, List.cons_append]
          exact skipWs_cons_false hws0 _
        have hhead : headIs (prL pyPr (x :: t) ++ rest) ']' = false := by
          rw [hX, hc0, List.cons_append, List.cons_append, headIs_cons]
          exact beq_eq_false_iff_ne.mpr hne0
        rw [hskip, hhead, if_neg (by simp), main t x f rest (fun z hz => ihm z hz) hf]
        rfl
  | hdict xs ihm =>
    intro fuel rest hsz hrest
    have main : ∀ (t : List (List Char × PyValue)) (k : List Char) (v : PyValue) (f : Nat)
        (rs : List Char),
        (∀ z ∈ (k, v) :: t, ∀ fz rz, PyValue.sz z.2 ≤ fz →
          (∀ c ∈ rz.head?, isDigitCh c = false) →
          parseVal pyCfg fz (prV pyPr z.2 ++ rz) = some (z.2, rz)) →
        PyValue.szD ((k, v) :: t) ≤ f →
        parseEntries pyCfg f (prD pyPr ((k, v) :: t) ++ rs) = some ((k, v) :: t, rs) := by
      intro t
      induction t with
      | nil =>
        intro k v f rs hmem hszd
        cases f with
        | zero => simp only [PyValue.szD] at hszd; omega
        | succ g =>
          have hg : PyValue.sz v ≤ g := by simp only [PyValue.szD] at hszd; omega
          rw [parseEntries_succ,
            show prD pyPr [(k, v)] ++ rs =
              '\'' :: (escBody escP k ++ ('\'' :: (':' :: ' ' :: (prV pyPr v ++ ('}' :: rs)))))
              from by simp [prD, pyPr],
            show skipWs pyCfg.ws ('\'' ::
                (escBody escP k ++ ('\'' :: (':' :: ' ' :: (prV pyPr v ++ ('}' :: rs)))))) =
              '\'' :: (escBody escP k ++ ('\'' :: (':' :: ' ' :: (prV pyPr v ++ ('}' :: rs)))))
              from skipWs_cons_false (by decide) _]
          rw [show parseKey pyCfg ('\'' ::
              (escBody escP k ++ ('\'' :: (':' :: ' ' :: (prV pyPr v ++ ('}' :: rs)))))) =
              parseStrBody pyCfg.esc '\''
                (escBody escP k ++ ('\'' :: (':' :: ' ' :: (prV pyPr v ++ ('}' :: rs))))) from
              by simp [parseKey, show pyCfg.single = true from rfl],
            pyCfg_esc, parseStrBody_rt_py]
          simp only [Option.some_bind]
          rw [show skipWs pyCfg.ws (':' :: ' ' :: (prV pyPr v ++ ('}' :: rs))) =
              ':' :: ' ' :: (prV pyPr v ++ ('}' :: rs)) from skipWs_cons_false (by decide) _]
          rw [show headIs (':' :: ' ' :: (prV pyPr v ++ ('}' :: rs))) ':' = true from rfl,
            if_pos rfl,
            show tailOf (':' :: ' ' :: (prV pyPr v ++ ('}' :: rs))) =
              ' ' :: (prV pyPr v ++ ('}' :: rs)) from rfl,
            parseVal_ws (by decide),
            hmem (k, v) (by simp) g ('}' :: rs) hg (headCons_nodigit (by decide) _)]
          simp only [Option.some_bind]
          rw [show skipWs pyCfg.ws ('}' :: rs) = '}' :: rs from skipWs_cons_false (by decide) _]
          simp [headIs, tailOf]
      | cons e t' ih =>
        intro k v f rs hmem hszd
        obtain ⟨ek, ev⟩ := e
        cases f with
        | zero => simp only [PyValue.szD] at hszd; omega
        | succ g =>
          have hg1 : PyValue.sz v ≤ g := by
            simp only [PyValue.szD] at hszd
            omega
          have hg2 : PyValue.szD ((ek, ev) :: t') ≤ g := by
            simp only [PyValue.szD] at hszd ⊢
            omega
          rw [parseEntries_succ,
            show prD pyPr ((k, v) :: (ek, ev) :: t') ++ rs =
              '\'' :: (escBody escP k ++ ('\'' :: (':' :: ' ' ::
                (prV pyPr v ++ (',' :: ' ' :: (prD pyPr ((ek, ev) :: t') ++ rs)))))) from
              by simp [prD, pyPr],
            show skipWs pyCfg.ws ('\'' :: (escBody escP k ++ ('\'' :: (':' :: ' ' ::
                (prV pyPr v ++ (',' :: ' ' :: (prD pyPr ((ek, ev) :: t') ++ rs))))))) =
              '\'' :: (escBody escP k ++ ('\'' :: (':' :: ' ' ::
                (prV pyPr v ++ (',' :: ' ' :: (prD pyPr ((ek, ev) :: t') ++ rs)))))) from
              skipWs_cons_false (by decide) _]
          rw [show parseKey pyCfg ('\'' :: (escBody escP k ++ ('\'' :: (':' :: ' ' ::
              (prV pyPr v ++ (',' :: ' ' :: (prD pyPr ((ek, ev) :: t') ++ rs))))))) =
              parseStrBody pyCfg.esc '\'' (escBody escP k ++ ('\'' :: (':' :: ' ' ::
              (prV pyPr v ++ (',' :: ' ' :: (prD pyPr ((ek, ev) :: t') ++ rs)))))) from
              by simp [parseKey, show pyCfg.single = true from rfl],
            pyCfg_esc, parseStrBody_rt_py]
          simp only [Option.some_bind]
          rw [show skipWs pyCfg.ws (':' :: ' ' ::
              (prV pyPr v ++ (',' :: ' ' :: (prD pyPr ((ek, ev) :: t') ++ rs)))) =
              ':' :: ' ' :: (prV pyPr v ++ (',' :: ' ' :: (prD pyPr ((ek, ev) :: t') ++ rs)))
              from skipWs_cons_false (by decide) _]
          rw [show headIs (':' :: ' ' ::
              (prV pyPr v ++ (',' :: ' ' :: (prD pyPr ((ek, ev) :: t') ++ rs)))) ':' = true
              from rfl,
            if_pos rfl,
            show tailOf (':' :: ' ' ::
              (prV pyPr v ++ (',' :: ' ' :: (prD pyPr ((ek, ev) :: t') ++ rs)))) =
              ' ' :: (prV pyPr v ++ (',' :: ' ' :: (prD pyPr ((ek, ev) :: t') ++ rs)))
              from rfl,
            parseVal_ws (by decide),
            hmem (k, v) (by simp) g _ hg1 (headCons_nodigit (by decide) _)]
          simp only [Option.some_bind]
          rw [show skipWs pyCfg.ws (',' :: ' ' :: (prD pyPr ((ek, ev) :: t') ++ rs)) =
              ',' :: ' ' :: (prD pyPr ((ek, ev) :: t') ++ rs) from
              skipWs_cons_false (by decide) _]
          rw [show headIs (',' :: ' ' :: (prD pyPr ((ek, ev) :: t') ++ rs)) ',' = true from rfl,
            if_pos rfl,
            show tailOf (',' :: ' ' :: (prD pyPr ((ek, ev) :: t') ++ rs)) =
              ' ' :: (prD pyPr ((ek, ev) :: t') ++ rs) from rfl,
            parseEntries_ws (by decide),
            ih ek ev g rs (fun z hz => hmem z (List.mem_cons_of_mem (k, v) hz)) hg2]
          rfl
    cases xs with
    | nil =>
      cases fuel with
      | zero => simp [PyValue.sz] at hsz
      | succ f =>
        rw [show prV pyPr (PyValue.dict []) ++ rest = '{' :: ('}' :: rest) from rfl,
          parseVal_cons _ _ _ _ (by decide), if_neg (by decide), if_neg (by decide),
          if_neg (by decide), if_pos rfl,
          show skipWs pyCfg.ws ('}' :: rest) = '}' :: rest from skipWs_cons_false (by decide) _]
        simp [headIs, tailOf]
    | cons e t =>
      obtain ⟨k, v⟩ := e
      cases fuel with
      | zero => simp [PyValue.sz] at hsz
      | succ f =>
        have hf : PyValue.szD ((k, v) :: t) ≤ f := by
          simp only [PyValue.sz] at hsz
          omega
        rw [show prV pyPr (PyValue.dict ((k, v) :: t)) ++ rest =
            '{' :: (prD pyPr ((k, v) :: t) ++ rest) from by simp [prV],
          parseVal_cons _ _ _ _ (by decide), if_neg (by decide), if_neg (by decide),
          if_neg (by decide), if_pos rfl]
        have hpd : ∃ Y, prD pyPr ((k, v) :: t) = '\'' :: Y := by
          cases t with
          | nil => exact ⟨escBody escP k ++ '\'' :: ':' :: ' ' :: prV pyPr v ++ ['}'], by
              simp [prD, pyPr]⟩
          | cons e2 t2 => exact ⟨escBody escP k ++ '\'' :: ':' :: ' ' :: prV pyPr v ++
              ',' :: ' ' :: prD pyPr (e2 :: t2), by
              obtain ⟨k2, v2⟩ := e2
              simp [prD, pyPr]⟩
        obtain ⟨Y, hY⟩ := hpd
        have hskip : skipWs pyCfg.ws (prD pyPr ((k, v) :: t) ++ rest) =
            prD pyPr ((k, v) :: t) ++ rest := by
          rw [hY, List.cons_append]
          exact skipWs_cons_false (by decide) _
        have hhead : headIs (prD pyPr ((k, v) :: t) ++ rest) '}' = false := by
          rw [hY, List.cons_append, headIs_cons]
          decide
        rw [hskip, hhead, if_neg (by simp),
          main t k v f rest (fun z hz => ihm z hz) hf]
        rfl

/-- The parser fuel a value needs is at most its printed length. -/
theorem prV_len (pc : PrCfg) (h1 : 1 ≤ pc.kwTrue.length) (h2 : 1 ≤ pc.kwFalse.length)
    (h3 : 1 ≤ pc.kwNone.length) :
    ∀ v : PyValue, PyValue.sz v ≤ (prV pc v).length := by
  intro v
  induction v using PyValue.my_ind with
  | hint n =>
    have hne := natChars_ne_nil n.natAbs
    simp only [prV, PyValue.sz, intChars]
    split
    · simp only [List.length_cons]
      omega
    · cases hC : natChars n.natAbs with
      | nil => exact absurd hC hne
      | cons d t => simp [hC]
  | hstr s => simp [prV, PyValue.sz]
  | hbool b =>
    cases b
    · simpa [prV, PyValue.sz] using h2
    · simpa [prV, PyValue.sz] using h1
  | hnone => simpa [prV, PyValue.sz] using h3
  | hlist xs ihm =>
    have main : ∀ t x, (∀ z ∈ x :: t, PyValue.sz z ≤ (prV pc z).length) →
        PyValue.szL (x :: t) ≤ (prL pc (x :: t)).length := by
      intro t
      induction t with
      | nil =>
        intro x hmem
        have := hmem x (by simp)
        simp only [PyValue.szL, prL, List.length_append, List.length_cons, List.length_nil]
        omega
      | cons y t' ih =>
        intro x hmem
        have hx := hmem x (by simp)
        have ht := ih y (fun z hz => hmem z (List.mem_cons_of_mem x hz))
        simp only [PyValue.szL] at ht ⊢
        simp only [prL, List.length_append, List.length_cons]
        omega
    cases xs with
    | nil => simp [prV, prL, PyValue.sz, PyValue.szL]
    | cons x t =>
      have := main t x (fun z hz => ihm z hz)
      simp only [PyValue.sz, prV, List.length_cons]
      omega
  | hdict xs ihm =>
    have main : ∀ t k v, (∀ z ∈ (k, v) :: t, PyValue.sz z.2 ≤ (prV pc z.2).length) →
        PyValue.szD ((k, v) :: t) ≤ (prD pc ((k, v) :: t)).length := by
      intro t
      induction t with
      | nil =>
        intro k v hmem
        have hv : PyValue.sz v ≤ (prV pc v).length := hmem (k, v) (by simp)
        simp only [PyValue.szD, prD, List.length_append, List.length_cons, List.length_nil]
        omega
      | cons e t' ih =>
        intro k v hmem
        obtain ⟨ek, ev⟩ := e
        have hv : PyValue.sz v ≤ (prV pc v).length := hmem (k, v) (by simp)
        have ht := ih ek ev (fun z hz => hmem z (List.mem_cons_of_mem (k, v) hz))
        simp only [PyValue.szD] at ht ⊢
        simp only [prD, List.length_append, List.length_cons]
        omega
    cases xs with
    | nil => simp [prV, prD, PyValue.sz, PyValue.szD]
    | cons e t =>
      obtain ⟨k, v⟩ := e
      have := main t k v (fun z hz => ihm z hz)
      simp only [PyValue.sz, prV, List.length_cons]
      omega

theorem jsonLoads_print (v : PyValue) : jsonLoads ⟨prV jsonPr v⟩ = some v := by
  unfold jsonLoads runParse
  have hlen : PyValue.sz v ≤ (prV jsonPr v).length :=
    prV_len jsonPr (by decide) (by decide) (by decide) v
  have h := parseVal_rt_json v ((prV jsonPr v).length + 1) [] (by omega) headNone_nodigit
  rw [List.append_nil] at h
  rw [show (⟨prV jsonPr v⟩ : String).data = prV jsonPr v from rfl, h]
  rfl

theorem literal_eval_print (v : PyValue) : literal_eval ⟨prV pyPr v⟩ = some v := by
  unfold literal_eval runParse
  have hlen : PyValue.sz v ≤ (prV pyPr v).length :=
    prV_len pyPr (by decide) (by decide) (by decide) v
  have h := parseVal_rt_py v ((prV pyPr v).length + 1) [] (by omega) headNone_nodigit
  rw [List.append_nil] at h
  rw [show (⟨prV pyPr v⟩ : String).data = prV pyPr v from rfl, h]
  rfl

theorem isBlank_prV_json (v : PyValue) : isBlank (prV jsonPr v) = false := by
  obtain ⟨c, t, hct, _, hws, _, _⟩ := prV_head_json v
  simp [isBlank, hct, hws]

theorem isBlank_prV_py (v : PyValue) : isBlank (prV pyPr v) = false := by
  obtain ⟨c, t, hct, _, hws, _, _⟩ := prV_head_py v
  simp [isBlank, hct, hws]

theorem isBlank_prV_mixed (v : PyValue) : isBlank (prV mixedPr v) = false := by
  obtain ⟨c, t, hct, _, hws, _, _⟩ := prV_head_mixed v
  simp [isBlank, hct, hws]

-- Dialect-coincidence lemmas.

theorem hasStringL_false {xs : List PyValue} (h : hasStringL xs = false) :
    ∀ x ∈ xs, hasString x = false := by
  induction xs with
  | nil => intro x hx; simp at hx
  | cons y t ih =>
    simp only [hasStringL, Bool.or_eq_false_iff] at h
    intro x hx
    rcases List.mem_cons.mp hx with rfl | hx2
    · exact h.1
    · exact ih h.2 x hx2

theorem hasBNL_false {xs : List PyValue} (h : hasBNL xs = false) :
    ∀ x ∈ xs, hasBN x = false := by
  induction xs with
  | nil => intro x hx; simp at hx
  | cons y t ih =>
    simp only [hasBNL, Bool.or_eq_false_iff] at h
    intro x hx
    rcases List.mem_cons.mp hx with rfl | hx2
    · exact h.1
    · exact ih h.2 x hx2

theorem hasBND_false {xs : List (List Char × PyValue)} (h : hasBND xs = false) :
    ∀ p ∈ xs, hasBN p.2 = false := by
  induction xs with
  | nil => intro p hp; simp at hp
  | cons e t ih =>
    obtain ⟨k, v⟩ := e
    simp only [hasBND, Bool.or_eq_false_iff] at h
    intro p hp
    rcases List.mem_cons.mp hp with rfl | hp2
    · exact h.1
    · exact ih h.2 p hp2

theorem prL_congr (pc1 pc2 : PrCfg) :
    ∀ xs, (∀ x ∈ xs, prV pc1 x = prV pc2 x) → prL pc1 xs = prL pc2 xs := by
  intro xs
  induction xs with
  | nil => intro _; rfl
  | cons x t ih =>
    intro h
    cases t with
    | nil =>
      show prV pc1 x ++ [']'] = prV pc2 x ++ [']']
      rw [h x (by simp)]
    | cons y t2 =>
      show prV pc1 x ++ ',' :: ' ' :: prL pc1 (y :: t2) = prV pc2 x ++ ',' :: ' ' :: prL pc2 (y :: t2)
      rw [h x (by simp), ih (fun z hz => h z (List.mem_cons_of_mem x hz))]

theorem prD_congr (pc1 pc2 : PrCfg) (hd : pc1.delim = pc2.delim)
    (he : ∀ s, escBody pc1.esc s = escBody pc2.esc s) :
    ∀ xs, (∀ p ∈ xs, prV pc1 p.2 = prV pc2 p.2) → prD pc1 xs = prD pc2 xs := by
  intro xs
  induction xs with
  | nil => intro _; rfl
  | cons e t ih =>
    obtain ⟨k, v⟩ := e
    intro h
    cases t with
    | nil =>
      show pc1.delim :: (escBody pc1.esc k ++ pc1.delim :: ':' :: ' ' :: prV pc1 v ++ ['}']) =
        pc2.delim :: (escBody pc2.esc k ++ pc2.delim :: ':' :: ' ' :: prV pc2 v ++ ['}'])
      rw [hd, he, h (k, v) (by simp)]
    | cons e2 t2 =>
      obtain ⟨k2, v2⟩ := e2
      show pc1.delim :: (escBody pc1.esc k ++ pc1.delim :: ':' :: ' ' :: prV pc1 v ++
          ',' :: ' ' :: prD pc1 ((k2, v2) :: t2)) =
        pc2.delim :: (escBody pc2.esc k ++ pc2.delim :: ':' :: ' ' :: prV pc2 v ++
          ',' :: ' ' :: prD pc2 ((k2, v2) :: t2))
      rw [hd, he, h (k, v) (by simp), ih (fun z hz => h z (List.mem_cons_of_mem (k, v) hz))]

/-- Without strings, the mixed-quote and JSON renderings coincide. -/
theorem prV_mixed_eq_json {v : PyValue} (h : hasString v = false) :
    prV mixedPr v = prV jsonPr v := by
  induction v using PyValue.my_ind with
  | hint n => rfl
  | hstr s => simp [hasString] at h
  | hbool b => cases b <;> rfl
  | hnone => rfl
  | hlist xs ihm =>
    simp only [hasString] at h
    show '[' :: prL mixedPr xs = '[' :: prL jsonPr xs
    rw [prL_congr mixedPr jsonPr xs (fun x hx => ihm x hx (hasStringL_false h x hx))]
  | hdict xs ihm =>
    cases xs with
    | nil => rfl
    | cons e t => simp [hasString] at h

/-- Without strings, booleans and `None`, the Python and JSON renderings
coincide (only ints and nesting remain). -/
theorem prV_py_eq_json {v : PyValue} (hs : hasString v = false) (hb : hasBN v = false) :
    prV pyPr v = prV jsonPr v := by
  induction v using PyValue.my_ind with
  | hint n => rfl
  | hstr s => simp [hasString] at hs
  | hbool b => simp [hasBN] at hb
  | hnone => simp [hasBN] at hb
  | hlist xs ihm =>
    simp only [hasString] at hs
    simp only [hasBN] at hb
    show '[' :: prL pyPr xs = '[' :: prL jsonPr xs
    rw [prL_congr pyPr jsonPr xs
      (fun x hx => ihm x hx (hasStringL_false hs x hx) (hasBNL_false hb x hx))]
  | hdict xs ihm =>
    cases xs with
    | nil => rfl
    | cons e t => simp [hasString] at hs

/-- Without booleans and `None`, the mixed-quote and Python renderings
coincide (same quote character, same keyword spellings unused). -/
theorem prV_mixed_eq_py {v : PyValue} (hb : hasBN v = false) :
    prV mixedPr v = prV pyPr v := by
  induction v using PyValue.my_ind with
  | hint n => rfl
  | hstr s => rfl
  | hbool b => simp [hasBN] at hb
  | hnone => simp [hasBN] at hb
  | hlist xs ihm =>
    simp only [hasBN] at hb
    show '[' :: prL mixedPr xs = '[' :: prL pyPr xs
    rw [prL_congr mixedPr pyPr xs (fun x hx => ihm x hx (hasBNL_false hb x hx))]
  | hdict xs ihm =>
    simp only [hasBN] at hb
    show '{' :: prD mixedPr xs = '{' :: prD pyPr xs
    rw [prD_congr mixedPr pyPr rfl (fun s => rfl) xs
      (fun p hp => ihm p hp (hasBND_false hb p hp))]

-- Failure of the parsers on out-of-grammar heads.

theorem parseVal_json_squote (fuel : Nat) (cs : List Char) :
    parseVal jsonCfg fuel ('\'' :: cs) = Option.none := by
  cases fuel with
  | zero => rfl
  | succ f =>
    rw [parseVal_cons _ _ _ _ (by decide), if_neg (by decide), if_pos rfl, if_neg (by decide)]

theorem parseVal_kw_fail (cfg : PCfg) (fuel : Nat) (c : Char) (cs : List Char)
    (hws : cfg.ws c = false) (h1 : c ≠ '"') (h2 : c ≠ '\'') (h3 : c ≠ '[') (h4 : c ≠ '{')
    (h5 : c ≠ '-') (h6 : isDigitCh c = false)
    (k1 : stripPre cfg.kwTrue (c :: cs) = Option.none)
    (k2 : stripPre cfg.kwFalse (c :: cs) = Option.none)
    (k3 : stripPre cfg.kwNone (c :: cs) = Option.none) :
    parseVal cfg (fuel + 1) (c :: cs) = Option.none := by
  rw [parseVal_kw cfg fuel c cs hws h1 h2 h3 h4 h5 h6, k1, k2, k3]
  rfl

/-- The capitalised Python keyword heads are rejected by the JSON grammar. -/
theorem parseVal_json_upper {c : Char} (h : c = 'T' ∨ c = 'F' ∨ c = 'N')
    (fuel : Nat) (cs : List Char) :
    parseVal jsonCfg fuel (c :: cs) = Option.none := by
  cases fuel with
  | zero => rfl
  | succ f =>
    rcases h with rfl | rfl | rfl <;>
      exact parseVal_kw_fail jsonCfg f _ cs (by decide) (by decide) (by decide) (by decide)
        (by decide) (by decide) (by decide)
        (stripPre_ne_head (by decide)) (stripPre_ne_head (by decide))
        (stripPre_ne_head (by decide))

/-- The lowercase JSON keyword heads are rejected by the Python-literal
grammar. -/
theorem parseVal_py_lower {c : Char} (h : c = 't' ∨ c = 'f' ∨ c = 'n')
    (fuel : Nat) (cs : List Char) :
    parseVal pyCfg fuel (c :: cs) = Option.none := by
  cases fuel with
  | zero => rfl
  | succ f =>
    rcases h with rfl | rfl | rfl <;>
      exact parseVal_kw_fail pyCfg f _ cs (by decide) (by decide) (by decide) (by decide)
        (by decide) (by decide) (by decide)
        (stripPre_ne_head (by decide)) (stripPre_ne_head (by decide))
        (stripPre_ne_head (by decide))

/-- Generic failure of the `json.loads` model on a printed value
containing at least one out-of-grammar construct (`bad`), for a printer
that single-quotes its strings and dictionary keys. -/
theorem parseVal_json_fail_of (pc : PrCfg) (bad : PyValue → Bool)
    (hdel : pc.delim = '\'')
    (hcoin : ∀ v, bad v = false → prV pc v = prV jsonPr v)
    (hhead : ∀ v, ∃ c t, prV pc v = c :: t ∧
      jsonWsChar c = false ∧ pyWsChar c = false ∧ c ≠ ']' ∧ c ≠ '}')
    (hL0 : bad (PyValue.list []) = false)
    (hLc : ∀ x t, bad (PyValue.list (x :: t)) = (bad x || bad (PyValue.list t)))
    (hD0 : bad (PyValue.dict []) = false)
    (hIn : ∀ n, bad (PyValue.int n) = false)
    (hBfail : ∀ b, bad (PyValue.bool b) = true →
      ∀ fuel cs, parseVal jsonCfg fuel (prV pc (PyValue.bool b) ++ cs) = Option.none)
    (hNfail : bad PyValue.none = true →
      ∀ fuel cs, parseVal jsonCfg fuel (prV pc PyValue.none ++ cs) = Option.none) :
    ∀ v, bad v = true → ∀ fuel rest, PyValue.sz v ≤ fuel →
      parseVal jsonCfg fuel (prV pc v ++ rest) = Option.none := by
  intro v
  induction v using PyValue.my_ind with
  | hint n =>
    intro h
    rw [hIn n] at h
    exact absurd h (by decide)
  | hstr s =>
    intro _ fuel rest _
    rw [show prV pc (PyValue.str s) ++ rest =
        pc.delim :: (escBody pc.esc s ++ (pc.delim :: rest)) from by simp [prV],
      hdel, parseVal_json_squote]
  | hbool b =>
    intro h fuel rest _
    exact hBfail b h fuel rest
  | hnone =>
    intro h fuel rest _
    exact hNfail h fuel rest
  | hlist xs ihm =>
    intro h fuel rest hsz
    have main : ∀ (t : List PyValue) (x : PyValue) (f : Nat) (rs : List Char),
        (∀ z ∈ x :: t, bad z = true → ∀ fz rz, PyValue.sz z ≤ fz →
          parseVal jsonCfg fz (prV pc z ++ rz) = Option.none) →
        bad (PyValue.list (x :: t)) = true →
        PyValue.szL (x :: t) ≤ f →
        parseElems jsonCfg f (prL pc (x :: t) ++ rs) = Option.none := by
      intro t
      induction t with
      | nil =>
        intro x f rs hmem hflag hszl
        have hbx : bad x = true := by
          rw [hLc, hL0, Bool.or_false] at hflag
          exact hflag
        cases f with
        | zero => rfl
        | succ g =>
          have hg : PyValue.sz x ≤ g := by simp only [PyValue.szL] at hszl; omega
          rw [parseElems_succ,
            show prL pc [x] ++ rs = prV pc x ++ (']' :: rs) from by simp [prL],
            hmem x (by simp) hbx g (']' :: rs) hg]
          rfl
      | cons y t' ih =>
        intro x f rs hmem hflag hszl
        cases f with
        | zero => rfl
        | succ g =>
          have hg1 : PyValue.sz x ≤ g := by simp only [PyValue.szL] at hszl; omega
          have hg2 : PyValue.szL (y :: t') ≤ g := by
            simp only [PyValue.szL] at hszl ⊢
            omega
          rw [parseElems_succ,
            show prL pc (x :: y :: t') ++ rs =
                prV pc x ++ (',' :: ' ' :: (prL pc (y :: t') ++ rs)) from by simp [prL]]
          cases hbx : bad x with
          | true =>
            rw [hmem x (by simp) hbx g _ hg1]
            rfl
          | false =>
            rw [hcoin x hbx,
              parseVal_rt_json x g _ hg1 (headCons_nodigit (by decide) _)]
            simp only [Option.some_bind]
            rw [show skipWs jsonCfg.ws (',' :: ' ' :: (prL pc (y :: t') ++ rs)) =
                ',' :: ' ' :: (prL pc (y :: t') ++ rs) from skipWs_cons_false (by decide) _]
            rw [show headIs (',' :: ' ' :: (prL pc (y :: t') ++ rs)) ',' = true from rfl,
              if_pos rfl,
              show tailOf (',' :: ' ' :: (prL pc (y :: t') ++ rs)) =
                ' ' :: (prL pc (y :: t') ++ rs) from rfl,
              parseElems_ws (by decide)]
            have hflag2 : bad (PyValue.list (y :: t')) = true := by
              rw [hLc, hbx, Bool.false_or] at hflag
              exact hflag
            rw [ih y g rs (fun z hz => hmem z (List.mem_cons_of_mem x hz)) hflag2 hg2]
            rfl
    cases xs with
    | nil =>
      rw [hL0] at h
      exact absurd h (by decide)
    | cons x t =>
      cases fuel with
      | zero => simp [PyValue.sz] at hsz
      | succ f =>
        have hf : PyValue.szL (x :: t) ≤ f := by
          simp only [PyValue.sz] at hsz
          omega
        obtain ⟨X, hX⟩ := prL_cons_eq pc x t
        obtain ⟨c0, t0, hc0, hws0, _, hne0, _⟩ := hhead x
        rw [show prV pc (PyValue.list (x :: t)) ++ rest = '[' :: (prL pc (x :: t) ++ rest)
            from by simp [prV],
          parseVal_cons _ _ _ _ (by decide), if_neg (by decide), if_neg (by decide), if_pos rfl]
        have hskip : skipWs jsonCfg.ws (prL pc (x :: t) ++ rest) =
            prL pc (x :: t) ++ rest := by
          rw [hX, hc0, List.cons_append]
          exact skipWs_cons_false (show jsonCfg.ws c0 = false from hws0) _
        have hhd : headIs (prL pc (x :: t) ++ rest) ']' = false := by
          rw [hX, hc0, List.cons_append, List.cons_append, headIs_cons]
          exact beq_eq_false_iff_ne.mpr hne0
        rw [hskip, hhd, if_neg (by simp), main t x f rest (fun z hz => ihm z hz) h hf]
        rfl
  | hdict xs ihm =>
    intro h fuel rest hsz
    cases xs with
    | nil =>
      rw [hD0] at h
      exact absurd h (by decide)
    | cons e t =>
      obtain ⟨k, v⟩ := e
      cases fuel with
      | zero => simp [PyValue.sz] at hsz
      | succ f =>
        rw [show prV pc (PyValue.dict ((k, v) :: t)) ++ rest =
            '{' :: (prD pc ((k, v) :: t) ++ rest) from by simp [prV],
          parseVal_cons _ _ _ _ (by decide), if_neg (by decide), if_neg (by decide),
          if_neg (by decide), if_pos rfl]
        have hpd : ∃ Y, prD pc ((k, v) :: t) = '\'' :: Y := by
          cases t with
          | nil =>
            refine ⟨escBody pc.esc k ++ pc.delim :: ':' :: ' ' :: prV pc v ++ ['}'], ?_⟩
            rw [← hdel]
            simp [prD]
          | cons e2 t2 =>
            obtain ⟨k2, v2⟩ := e2
            refine ⟨escBody pc.esc k ++ pc.delim :: ':' :: ' ' :: prV pc v ++
                ',' :: ' ' :: prD pc ((k2, v2) :: t2), ?_⟩
            rw [← hdel]
            simp [prD]
        obtain ⟨Y, hY⟩ := hpd
        have hskip : skipWs jsonCfg.ws (prD pc ((k, v) :: t) ++ rest) =
            prD pc ((k, v) :: t) ++ rest := by
          rw [hY, List.cons_append]
          exact skipWs_cons_false (by decide) _
        have hhd : headIs (prD pc ((k, v) :: t) ++ rest) '}' = false := by
          rw [hY, List.cons_append, headIs_cons]
          decide
        rw [hskip, hhd, if_neg (by simp), hY, List.cons_append]
        cases f with
        | zero => rfl
        | succ g =>
          rw [parseEntries_succ,
            show skipWs jsonCfg.ws ('\'' :: (Y ++ rest)) = '\'' :: (Y ++ rest) from
              skipWs_cons_false (by decide) _,
            show parseKey jsonCfg ('\'' :: (Y ++ rest)) = Option.none from by
              simp [parseKey, show jsonCfg.single = false from rfl]]
          rfl

/-- A Python-literal rendering containing a string, boolean or `None` is
rejected by the `json.loads` model. -/
theorem parseVal_json_fail_py :
    ∀ v, (hasString v || hasBN v) = true → ∀ fuel rest, PyValue.sz v ≤ fuel →
      parseVal jsonCfg fuel (prV pyPr v ++ rest) = Option.none := by
  refine parseVal_json_fail_of pyPr (fun v => hasString v || hasBN v) rfl ?_ prV_head_py rfl
    ?_ rfl (fun n => rfl) ?_ ?_
  · intro v hv
    rw [Bool.or_eq_false_iff] at hv
    exact prV_py_eq_json hv.1 hv.2
  · intro x t
    simp only [hasString, hasBN, hasStringL, hasBNL]
    cases hasString x <;> cases hasBN x <;> cases hasStringL t <;> cases hasBNL t <;> rfl
  · intro b _ fuel cs
    cases b
    · rw [show prV pyPr (PyValue.bool false) ++ cs = 'F' :: ('a' :: 'l' :: 's' :: 'e' :: cs)
        from rfl]
      exact parseVal_json_upper (by decide) fuel _
    · rw [show prV pyPr (PyValue.bool true) ++ cs = 'T' :: ('r' :: 'u' :: 'e' :: cs) from rfl]
      exact parseVal_json_upper (by decide) fuel _
  · intro _ fuel cs
    rw [show prV pyPr PyValue.none ++ cs = 'N' :: ('o' :: 'n' :: 'e' :: cs) from rfl]
    exact parseVal_json_upper (by decide) fuel _

/-- A mixed-quote rendering containing a string is rejected by the
`json.loads` model (the single-quoted string is out of grammar). -/
theorem parseVal_json_fail_mixed :
    ∀ v, hasString v = true → ∀ fuel rest, PyValue.sz v ≤ fuel →
      parseVal jsonCfg fuel (prV mixedPr v ++ rest) = Option.none := by
  refine parseVal_json_fail_of mixedPr hasString rfl
    (fun v hv => prV_mixed_eq_json hv) prV_head_mixed rfl (fun x t => rfl) rfl
    (fun n => rfl) ?_ ?_
  · intro b hb
    exact absurd hb (by cases b <;> decide)
  · intro hb
    exact absurd hb (by decide)

/-- A mixed-quote rendering containing a boolean or `None` is rejected by
the `ast.literal_eval` model (the lowercase keyword spellings are out of
grammar). -/
theorem parseVal_py_fail_mixed :
    ∀ v, hasBN v = true → ∀ fuel rest, PyValue.sz v ≤ fuel →
      parseVal pyCfg fuel (prV mixedPr v ++ rest) = Option.none := by
  intro v
  induction v using PyValue.my_ind with
  | hint n =>
    intro h
    simp [hasBN] at h
  | hstr s =>
    intro h
    simp [hasBN] at h
  | hbool b =>
    intro _ fuel rest _
    cases b
    · rw [show prV mixedPr (PyValue.bool false) ++ rest = 'f' :: ('a' :: 'l' :: 's' :: 'e' :: rest)
        from rfl]
      exact parseVal_py_lower (by decide) fuel _
    · rw [show prV mixedPr (PyValue.bool true) ++ rest = 't' :: ('r' :: 'u' :: 'e' :: rest)
        from rfl]
      exact parseVal_py_lower (by decide) fuel _
  | hnone =>
    intro _ fuel rest _
    rw [show prV mixedPr PyValue.none ++ rest = 'n' :: ('u' :: 'l' :: 'l' :: rest) from rfl]
    exact parseVal_py_lower (by decide) fuel _
  | hlist xs ihm =>
    intro h fuel rest hsz
    have main : ∀ (t : List PyValue) (x : PyValue) (f : Nat) (rs : List Char),
        (∀ z ∈ x :: t, hasBN z = true → ∀ fz rz, PyValue.sz z ≤ fz →
          parseVal pyCfg fz (prV mixedPr z ++ rz) = Option.none) →
        hasBNL (x :: t) = true →
        PyValue.szL (x :: t) ≤ f →
        parseElems pyCfg f (prL mixedPr (x :: t) ++ rs) = Option.none := by
      intro t
      induction t with
      | nil =>
        intro x f rs hmem hflag hszl
        have hbx : hasBN x = true := by
          simp only [hasBNL, Bool.or_false] at hflag
          exact hflag
        cases f with
        | zero => rfl
        | succ g =>
          have hg : PyValue.sz x ≤ g := by simp only [PyValue.szL] at hszl; omega
          rw [parseElems_succ,
            show prL mixedPr [x] ++ rs = prV mixedPr x ++ (']' :: rs) from by simp [prL],
            hmem x (by simp) hbx g (']' :: rs) hg]
          rfl
      | cons y t' ih =>
        intro x f rs hmem hflag hszl
        cases f with
        | zero => rfl
        | succ g =>
          have hg1 : PyValue.sz x ≤ g := by simp only [PyValue.szL] at hszl; omega
          have hg2 : PyValue.szL (y :: t') ≤ g := by
            simp only [PyValue.szL] at hszl ⊢
            omega
          rw [parseElems_succ,
            show prL mixedPr (x :: y :: t') ++ rs =
                prV mixedPr x ++ (',' :: ' ' :: (prL mixedPr (y :: t') ++ rs)) from by simp [prL]]
          cases hbx : hasBN x with
          | true =>
            rw [hmem x (by simp) hbx g _ hg1]
            rfl
          | false =>
            rw [prV_mixed_eq_py hbx,
              parseVal_rt_py x g _ hg1 (headCons_nodigit (by decide) _)]
            simp only [Option.some_bind]
            rw [show skipWs pyCfg.ws (',' :: ' ' :: (prL mixedPr (y :: t') ++ rs)) =
                ',' :: ' ' :: (prL mixedPr (y :: t') ++ rs) from skipWs_cons_false (by decide) _]
            rw [show headIs (',' :: ' ' :: (prL mixedPr (y :: t') ++ rs)) ',' = true from rfl,
              if_pos rfl,
              show tailOf (',' :: ' ' :: (prL mixedPr (y :: t') ++ rs)) =
                ' ' :: (prL mixedPr (y :: t') ++ rs) from rfl,
              parseElems_ws (by decide)]
            have hflag2 : hasBNL (y :: t') = true := by
              simp only [hasBNL, hbx, Bool.false_or] at hflag
              exact hflag
            rw [ih y g rs (fun z hz => hmem z (List.mem_cons_of_mem x hz)) hflag2 hg2]
            rfl
    cases xs with
    | nil =>
      simp only [hasBN, hasBNL] at h
      exact absurd h (by decide)
    | cons x t =>
      cases fuel with
      | zero => simp [PyValue.sz] at hsz
      | succ f =>
        have hf : PyValue.szL (x :: t) ≤ f := by
          simp only [PyValue.sz] at hsz
          omega
        obtain ⟨X, hX⟩ := prL_cons_eq mixedPr x t
        obtain ⟨c0, t0, hc0, _, hws0, hne0, _⟩ := prV_head_mixed x
        rw [show prV mixedPr (PyValue.list (x :: t)) ++ rest = '[' :: (prL mixedPr (x :: t) ++ rest)
            from by simp [prV],
          parseVal_cons _ _ _ _ (by decide), if_neg (by decide), if_neg (by decide), if_pos rfl]
        have hskip : skipWs pyCfg.ws (prL mixedPr (x :: t) ++ rest) =
            prL mixedPr (x :: t) ++ rest := by
          rw [hX, hc0, List.cons_append]
          exact skipWs_cons_false (show pyCfg.ws c0 = false from hws0) _
        have hhd : headIs (prL mixedPr (x :: t) ++ rest) ']' = false := by
          rw [hX, hc0, List.cons_append, List.cons_append, headIs_cons]
          exact beq_eq_false_iff_ne.mpr hne0
        rw [hskip, hhd, if_neg (by simp),
          main t x f rest (fun z hz => ihm z hz) (by simpa [hasBN] using h) hf]
        rfl
  | hdict xs ihm =>
    intro h fuel rest hsz
    have main : ∀ (t : List (List Char × PyValue)) (k : List Char) (v : PyValue) (f : Nat)
        (rs : List Char),
        (∀ z ∈ (k, v) :: t, hasBN z.2 = true → ∀ fz rz, PyValue.sz z.2 ≤ fz →
          parseVal pyCfg fz (prV mixedPr z.2 ++ rz) = Option.none) →
        hasBND ((k, v) :: t) = true →
        PyValue.szD ((k, v) :: t) ≤ f →
        parseEntries pyCfg f (prD mixedPr ((k, v) :: t) ++ rs) = Option.none := by
      intro t
      induction t with
      | nil =>
        intro k v f rs hmem hflag hszd
        have hbv : hasBN v = true := by
          simp only [hasBND, Bool.or_false] at hflag
          exact hflag
        cases f with
        | zero => rfl
        | succ g =>
          have hg : PyValue.sz v ≤ g := by simp only [PyValue.szD] at hszd; omega
          rw [parseEntries_succ,
            show prD mixedPr [(k, v)] ++ rs =
              '\'' :: (escBody escP k ++ ('\'' :: (':' :: ' ' :: (prV mixedPr v ++ ('}' :: rs)))))
              from by simp [prD, mixedPr],
            show skipWs pyCfg.ws ('\'' ::
                (escBody escP k ++ ('\'' :: (':' :: ' ' :: (prV mixedPr v ++ ('}' :: rs)))))) =
              '\'' :: (escBody escP k ++ ('\'' :: (':' :: ' ' :: (prV mixedPr v ++ ('}' :: rs)))))
              from skipWs_cons_false (by decide) _]
          rw [show parseKey pyCfg ('\'' ::
              (escBody escP k ++ ('\'' :: (':' :: ' ' :: (prV mixedPr v ++ ('}' :: rs)))))) =
              parseStrBody pyCfg.esc '\''
                (escBody escP k ++ ('\'' :: (':' :: ' ' :: (prV mixedPr v ++ ('}' :: rs))))) from
              by simp [parseKey, show pyCfg.single = true from rfl],
            pyCfg_esc, parseStrBody_rt_py]
          simp only [Option.some_bind]
          rw [show skipWs pyCfg.ws (':' :: ' ' :: (prV mixedPr v ++ ('}' :: rs))) =
              ':' :: ' ' :: (prV mixedPr v ++ ('}' :: rs)) from skipWs_cons_false (by decide) _]
          rw [show headIs (':' :: ' ' :: (prV mixedPr v ++ ('}' :: rs))) ':' = true from rfl,
            if_pos rfl,
            show tailOf (':' :: ' ' :: (prV mixedPr v ++ ('}' :: rs))) =
              ' ' :: (prV mixedPr v ++ ('}' :: rs)) from rfl,
            parseVal_ws (by decide),
            hmem (k, v) (by simp) hbv g ('}' :: rs) hg]
          rfl
      | cons e t' ih =>
        intro k v f rs hmem hflag hszd
        obtain ⟨ek, ev⟩ := e
        cases f with
        | zero => rfl
        | succ g =>
          have hg1 : PyValue.sz v ≤ g := by
            simp only [PyValue.szD] at hszd
            omega
          have hg2 : PyValue.szD ((ek, ev) :: t') ≤ g := by
            simp only [PyValue.szD] at hszd ⊢
            omega
          rw [parseEntries_succ,
            show prD mixedPr ((k, v) :: (ek, ev) :: t') ++ rs =
              '\'' :: (escBody escP k ++ ('\'' :: (':' :: ' ' ::
                (prV mixedPr v ++ (',' :: ' ' :: (prD mixedPr ((ek, ev) :: t') ++ rs)))))) from
              by simp [prD, mixedPr],
            show skipWs pyCfg.ws ('\'' :: (escBody escP k ++ ('\'' :: (':' :: ' ' ::
                (prV mixedPr v ++ (',' :: ' ' :: (prD mixedPr ((ek, ev) :: t') ++ rs))))))) =
              '\'' :: (escBody escP k ++ ('\'' :: (':' :: ' ' ::
                (prV mixedPr v ++ (',' :: ' ' :: (prD mixedPr ((ek, ev) :: t') ++ rs)))))) from
              skipWs_cons_false (by decide) _]
          rw [show parseKey pyCfg ('\'' :: (escBody escP k ++ ('\'' :: (':' :: ' ' ::
              (prV mixedPr v ++ (',' :: ' ' :: (prD mixedPr ((ek, ev) :: t') ++ rs))))))) =
              parseStrBody pyCfg.esc '\'' (escBody escP k ++ ('\'' :: (':' :: ' ' ::
              (prV mixedPr v ++ (',' :: ' ' :: (prD mixedPr ((ek, ev) :: t') ++ rs)))))) from
              by simp [parseKey, show pyCfg.single = true from rfl],
            pyCfg_esc, parseStrBody_rt_py]
          simp only [Option.some_bind]
          rw [show skipWs pyCfg.ws (':' :: ' ' ::
              (prV mixedPr v ++ (',' :: ' ' :: (prD mixedPr ((ek, ev) :: t') ++ rs)))) =
              ':' :: ' ' :: (prV mixedPr v ++ (',' :: ' ' :: (prD mixedPr ((ek, ev) :: t') ++ rs)))
              from skipWs_cons_false (by decide) _]
          rw [show headIs (':' :: ' ' ::
              (prV mixedPr v ++ (',' :: ' ' :: (prD mixedPr ((ek, ev) :: t') ++ rs)))) ':' = true
              from rfl,
            if_pos rfl,
            show tailOf (':' :: ' ' ::
              (prV mixedPr v ++ (',' :: ' ' :: (prD mixedPr ((ek, ev) :: t') ++ rs)))) =
              ' ' :: (prV mixedPr v ++ (',' :: ' ' :: (prD mixedPr ((ek, ev) :: t') ++ rs)))
              from rfl,
            parseVal_ws (by decide)]
          cases hbv : hasBN v with
          | true =>
            rw [hmem (k, v) (by simp) hbv g _ hg1]
            rfl
          | false =>
            rw [prV_mixed_eq_py hbv,
              parseVal_rt_py v g _ hg1 (headCons_nodigit (by decide) _)]
            simp only [Option.some_bind]
            rw [show skipWs pyCfg.ws (',' :: ' ' :: (prD mixedPr ((ek, ev) :: t') ++ rs)) =
                ',' :: ' ' :: (prD mixedPr ((ek, ev) :: t') ++ rs) from
                skipWs_cons_false (by decide) _]
            rw [show headIs (',' :: ' ' :: (prD mixedPr ((ek, ev) :: t') ++ rs)) ',' = true
                from rfl,
              if_pos rfl,
              show tailOf (',' :: ' ' :: (prD mixedPr ((ek, ev) :: t') ++ rs)) =
                ' ' :: (prD mixedPr ((ek, ev) :: t') ++ rs) from rfl,
              parseEntries_ws (by decide)]
            have hflag2 : hasBND ((ek, ev) :: t') = true := by
              simp only [hasBND, hbv, Bool.false_or] at hflag
              exact hflag
            rw [ih ek ev g rs (fun z hz => hmem z (List.mem_cons_of_mem (k, v) hz)) hflag2 hg2]
            rfl
    cases xs with
    | nil =>
      simp only [hasBN, hasBND] at h
      exact absurd h (by decide)
    | cons e t =>
      obtain ⟨k, v⟩ := e
      cases fuel with
      | zero => simp [PyValue.sz] at hsz
      | succ f =>
        have hf : PyValue.szD ((k, v) :: t) ≤ f := by
          simp only [PyValue.sz] at hsz
          omega
        rw [show prV mixedPr (PyValue.dict ((k, v) :: t)) ++ rest =
            '{' :: (prD mixedPr ((k, v) :: t) ++ rest) from by simp [prV],
          parseVal_cons _ _ _ _ (by decide), if_neg (by decide), if_neg (by decide),
          if_neg (by decide), if_pos rfl]
        have hpd : ∃ Y, prD mixedPr ((k, v) :: t) = '\'' :: Y := by
          cases t with
          | nil =>
            exact ⟨escBody escP k ++ '\'' :: ':' :: ' ' :: prV mixedPr v ++ ['}'], by
              simp [prD, mixedPr]⟩
          | cons e2 t2 =>
            obtain ⟨k2, v2⟩ := e2
            exact ⟨escBody escP k ++ '\'' :: ':' :: ' ' :: prV mixedPr v ++
                ',' :: ' ' :: prD mixedPr ((k2, v2) :: t2), by simp [prD, mixedPr]⟩
        obtain ⟨Y, hY⟩ := hpd
        have hskip : skipWs pyCfg.ws (prD mixedPr ((k, v) :: t) ++ rest) =
            prD mixedPr ((k, v) :: t) ++ rest := by
          rw [hY, List.cons_append]
          exact skipWs_cons_false (by decide) _
        have hhd : headIs (prD mixedPr ((k, v) :: t) ++ rest) '}' = false := by
          rw [hY, List.cons_append, headIs_cons]
          decide
        rw [hskip, hhd, if_neg (by simp),
          main t k v f rest (fun z hz => ihm z hz) (by simpa [hasBN] using h) hf]
        rfl

-- ### The quote-and-keyword rewrite on mixed-quote renderings.

theorem jsonLoads_py_fail {v : PyValue} (h : (hasString v || hasBN v) = true) :
    jsonLoads ⟨prV pyPr v⟩ = Option.none := by
  unfold jsonLoads runParse
  have hlen : PyValue.sz v ≤ (prV pyPr v).length :=
    prV_len pyPr (by decide) (by decide) (by decide) v
  have hfail := parseVal_json_fail_py v h ((prV pyPr v).length + 1) [] (by omega)
  rw [List.append_nil] at hfail
  rw [show (⟨prV pyPr v⟩ : String).data = prV pyPr v from rfl, hfail]
  rfl

theorem jsonLoads_mixed_fail {v : PyValue} (h : hasString v = true) :
    jsonLoads ⟨prV mixedPr v⟩ = Option.none := by
  unfold jsonLoads runParse
  have hlen : PyValue.sz v ≤ (prV mixedPr v).length :=
    prV_len mixedPr (by decide) (by decide) (by decide) v
  have hfail := parseVal_json_fail_mixed v h ((prV mixedPr v).length + 1) [] (by omega)
  rw [List.append_nil] at hfail
  rw [show (⟨prV mixedPr v⟩ : String).data = prV mixedPr v from rfl, hfail]
  rfl

theorem literal_eval_mixed_fail {v : PyValue} (h : hasBN v = true) :
    literal_eval ⟨prV mixedPr v⟩ = Option.none := by
  unfold literal_eval runParse
  have hlen : PyValue.sz v ≤ (prV mixedPr v).length :=
    prV_len mixedPr (by decide) (by decide) (by decide) v
  have hfail := parseVal_py_fail_mixed v h ((prV mixedPr v).length + 1) [] (by omega)
  rw [List.append_nil] at hfail
  rw [show (⟨prV mixedPr v⟩ : String).data = prV mixedPr v from rfl, hfail]
  rfl

theorem replaceAux_cons (p r : List Char) (f : Nat) (c : Char) (cs : List Char) :
    replaceAux p r (f + 1) (c :: cs) =
      if p.isPrefixOf (c :: cs) then r ++ replaceAux p r f (List.drop (p.length - 1) cs)
      else c :: replaceAux p r f cs := rfl

/-- Replacing a one-character pattern is a character map. -/
theorem replaceAux_quote :
    ∀ fuel s, s.length ≤ fuel → replaceAux ['\''] ['"'] fuel s = s.map sq2dq := by
  intro fuel
  induction fuel with
  | zero =>
    intro s hs
    cases s with
    | nil => rfl
    | cons c cs => simp at hs
  | succ f ih =>
    intro s hs
    cases s with
    | nil => rfl
    | cons c cs =>
      simp only [List.length_cons] at hs
      rw [replaceAux_cons]
      by_cases hc : c = '\''
      · subst hc
        rw [if_pos (show List.isPrefixOf ['\''] ('\'' :: cs) = true from by
            simp [List.isPrefixOf]),
          show List.drop (List.length ['\''] - 1) cs = cs from by simp,
          ih cs (by omega)]
        rfl
      · rw [if_neg (show ¬ List.isPrefixOf ['\''] (c :: cs) = true from by
            simp [List.isPrefixOf, beq_eq_false_iff_ne.mpr (Ne.symm hc)]),
          ih cs (by omega),
          show List.map sq2dq (c :: cs) = c :: List.map sq2dq cs from by
            simp [List.map_cons, sq2dq, if_neg hc]]

theorem replaceAux_no_occ {a : Char} (p r : List Char) :
    ∀ fuel s, a ∉ s → replaceAux (a :: p) r fuel s = s := by
  intro fuel
  induction fuel with
  | zero =>
    intro s _
    rfl
  | succ f ih =>
    intro s hs
    cases s with
    | nil => rfl
    | cons c cs =>
      have hac : ¬ List.isPrefixOf (a :: p) (c :: cs) = true := by
        simp only [List.isPrefixOf, Bool.and_eq_true, beq_iff_eq]
        intro hcon
        apply hs
        rw [hcon.1]
        exact List.mem_cons_self c cs
      rw [replaceAux_cons, if_neg hac, ih cs (fun hm => hs (List.mem_cons_of_mem c hm))]

theorem replaceL_no_occ {a : Char} (p r : List Char) (s : List Char) (h : a ∉ s) :
    replaceL (a :: p) r s = s := replaceAux_no_occ p r s.length s h

theorem sq2dq_ne {c : Char} (h : c ≠ '\'') : sq2dq c = c := if_neg h

theorem escP_map_escJ {c : Char} (h : safeChar c = true) :
    (escP c).map sq2dq = escJ c := by
  by_cases h2 : c = '\\'
  · subst h2
    rfl
  by_cases h3 : c = '\n'
  · subst h3
    rfl
  by_cases h4 : c = '\t'
  · subst h4
    rfl
  by_cases h5 : c = '\r'
  · subst h5
    rfl
  have hq : c ≠ '\'' := by
    intro he
    subst he
    simp [safeChar] at h
  have hdq : c ≠ '"' := by
    intro he
    subst he
    simp [safeChar] at h
  rw [show escP c = [c] from by
      simp only [escP, if_neg hq, if_neg h2, if_neg h3, if_neg h4, if_neg h5],
    show escJ c = [c] from by
      simp only [escJ, if_neg hdq, if_neg h2, if_neg h3, if_neg h4, if_neg h5],
    List.map_cons, sq2dq_ne hq]
  rfl

theorem escBody_map_quote {s : List Char} (h : s.all safeChar = true) :
    (escBody escP s).map sq2dq = escBody escJ s := by
  induction s with
  | nil => rfl
  | cons c cs ih =>
    simp only [List.all_cons, Bool.and_eq_true] at h
    simp only [escBody, List.map_append]
    rw [escP_map_escJ h.1, ih h.2]

theorem intChars_mem {n : Int} : ∀ d ∈ intChars n, isDigitCh d = true ∨ d = '-' := by
  intro d hd
  by_cases hn : n < 0
  · simp only [intChars, if_pos hn] at hd
    rcases List.mem_cons.mp hd with rfl | hd2
    · exact Or.inr rfl
    · exact Or.inl (natChars_digits hd2)
  · simp only [intChars, if_neg hn] at hd
    exact Or.inl (natChars_digits hd)

/-- The single-quote-to-double-quote map turns a mixed-quote rendering
into the strict-JSON rendering, provided no string content carries a
quote character. -/
theorem prV_mixed_map_quote : ∀ v, cleanV v = true →
    (prV mixedPr v).map sq2dq = prV jsonPr v := by
  intro v
  induction v using PyValue.my_ind with
  | hint n =>
    intro _
    show (intChars n).map sq2dq = intChars n
    have hid : ∀ d ∈ intChars n, sq2dq d = id d := by
      intro d hd
      rcases intChars_mem d hd with hdig | rfl
      · obtain ⟨h48, h57⟩ := isDigitCh_bounds hdig
        exact sq2dq_ne (char_ne_of_digit h48 h57 _ (by decide))
      · rfl
    rw [List.map_congr_left hid, List.map_id]
  | hstr s =>
    intro h
    simp only [cleanV] at h
    show ('\'' :: (escBody escP s ++ ['\''])).map sq2dq = '"' :: (escBody escJ s ++ ['"'])
    simp only [List.map_cons, List.map_append]
    rw [escBody_map_quote h]
    rfl
  | hbool b =>
    intro _
    cases b <;> rfl
  | hnone =>
    intro _
    rfl
  | hlist xs ihm =>
    intro h
    simp only [cleanV] at h
    have main : ∀ (t : List PyValue) (x : PyValue),
        (∀ z ∈ x :: t, cleanV z = true → (prV mixedPr z).map sq2dq = prV jsonPr z) →
        cleanL (x :: t) = true →
        (prL mixedPr (x :: t)).map sq2dq = prL jsonPr (x :: t) := by
      intro t
      induction t with
      | nil =>
        intro x hmem hcl
        simp only [cleanL, Bool.and_eq_true] at hcl
        show (prV mixedPr x ++ [']']).map sq2dq = prV jsonPr x ++ [']']
        rw [List.map_append, hmem x (by simp) hcl.1]
        rfl
      | cons y t' ih =>
        intro x hmem hcl
        simp only [cleanL, Bool.and_eq_true] at hcl
        show (prV mixedPr x ++ ',' :: ' ' :: prL mixedPr (y :: t')).map sq2dq =
          prV jsonPr x ++ ',' :: ' ' :: prL jsonPr (y :: t')
        rw [List.map_append, hmem x (by simp) hcl.1, List.map_cons, List.map_cons,
          ih y (fun z hz => hmem z (List.mem_cons_of_mem x hz))
            (by simp only [cleanL, Bool.and_eq_true]; exact hcl.2)]
        rfl
    cases xs with
    | nil => rfl
    | cons x t =>
      show ('[' :: prL mixedPr (x :: t)).map sq2dq = '[' :: prL jsonPr (x :: t)
      rw [List.map_cons, main t x (fun z hz => ihm z hz) h]
      rfl
  | hdict xs ihm =>
    intro h
    simp only [cleanV] at h
    have main : ∀ (t : List (List Char × PyValue)) (k : List Char) (v : PyValue),
        (∀ z ∈ (k, v) :: t, cleanV z.2 = true → (prV mixedPr z.2).map sq2dq = prV jsonPr z.2) →
        cleanD ((k, v) :: t) = true →
        (prD mixedPr ((k, v) :: t)).map sq2dq = prD jsonPr ((k, v) :: t) := by
      intro t
      induction t with
      | nil =>
        intro k v hmem hcl
        simp only [cleanD, Bool.and_eq_true] at hcl
        show ('\'' :: (escBody escP k ++ '\'' :: ':' :: ' ' :: prV mixedPr v ++ ['}'])).map sq2dq =
          '"' :: (escBody escJ k ++ '"' :: ':' :: ' ' :: prV jsonPr v ++ ['}'])
        simp only [List.map_cons, List.map_append]
        rw [escBody_map_quote hcl.1.1, hmem (k, v) (by simp) hcl.1.2]
        rfl
      | cons e t' ih =>
        intro k v hmem hcl
        obtain ⟨ek, ev⟩ := e
        simp only [cleanD, Bool.and_eq_true] at hcl
        show ('\'' :: (escBody escP k ++ '\'' :: ':' :: ' ' :: prV mixedPr v ++
            ',' :: ' ' :: prD mixedPr ((ek, ev) :: t'))).map sq2dq =
          '"' :: (escBody escJ k ++ '"' :: ':' :: ' ' :: prV jsonPr v ++
            ',' :: ' ' :: prD jsonPr ((ek, ev) :: t'))
        simp only [List.map_cons, List.map_append]
        rw [escBody_map_quote hcl.1.1, hmem (k, v) (by simp) hcl.1.2,
          ih ek ev (fun z hz => hmem z (List.mem_cons_of_mem (k, v) hz))
            (by simp only [cleanD, Bool.and_eq_true]; exact hcl.2)]
        rfl
    cases xs with
    | nil => rfl
    | cons e t =>
      obtain ⟨k, v⟩ := e
      show ('{' :: prD mixedPr ((k, v) :: t)).map sq2dq = '{' :: prD jsonPr ((k, v) :: t)
      rw [List.map_cons, main t k v (fun z hz => ihm z hz) h]
      rfl

theorem escBody_mem {esc : Char → List Char} :
    ∀ {s : List Char} {d : Char}, d ∈ escBody esc s → ∃ c ∈ s, d ∈ esc c := by
  intro s
  induction s with
  | nil =>
    intro d hd
    simp [escBody] at hd
  | cons c cs ih =>
    intro d hd
    simp only [escBody, List.mem_append] at hd
    rcases hd with h | h
    · exact ⟨c, by simp, h⟩
    · obtain ⟨e, he, hde⟩ := ih h
      exact ⟨e, List.mem_cons_of_mem c he, hde⟩

theorem escJ_safe_chars {c : Char} (h : safeChar c = true) :
    ∀ d ∈ escJ c, d ≠ 'T' ∧ d ≠ 'F' ∧ d ≠ 'N' := by
  intro d hd
  have hq : c ≠ '"' := by
    intro he
    subst he
    simp [safeChar] at h
  simp only [escJ, if_neg hq] at hd
  by_cases h2 : c = '\\'
  · rw [if_pos h2] at hd
    simp at hd
    subst hd
    exact ⟨by decide, by decide, by decide⟩
  rw [if_neg h2] at hd
  by_cases h3 : c = '\n'
  · rw [if_pos h3] at hd
    simp at hd
    rcases hd with rfl | rfl
    · exact ⟨by decide, by decide, by decide⟩
    · exact ⟨by decide, by decide, by decide⟩
  rw [if_neg h3] at hd
  by_cases h4 : c = '\t'
  · rw [if_pos h4] at hd
    simp at hd
    rcases hd with rfl | rfl
    · exact ⟨by decide, by decide, by decide⟩
    · exact ⟨by decide, by decide, by decide⟩
  rw [if_neg h4] at hd
  by_cases h5 : c = '\r'
  · rw [if_pos h5] at hd
    simp at hd
    rcases hd with rfl | rfl
    · exact ⟨by decide, by decide, by decide⟩
    · exact ⟨by decide, by decide, by decide⟩
  rw [if_neg h5] at hd
  simp at hd
  subst hd
  refine ⟨?_, ?_, ?_⟩ <;> intro he <;> subst he <;> simp [safeChar] at h

/-- No capital `T`, `F` or `N` occurs in a strict-JSON rendering whose
string contents avoid them. -/
theorem prV_json_no_TFN : ∀ v, cleanV v = true →
    ∀ d ∈ prV jsonPr v, d ≠ 'T' ∧ d ≠ 'F' ∧ d ≠ 'N' := by
  intro v
  induction v using PyValue.my_ind with
  | hint n =>
    intro _ d hd
    rcases intChars_mem d (by simpa [prV] using hd) with hdig | rfl
    · obtain ⟨h48, h57⟩ := isDigitCh_bounds hdig
      exact ⟨char_ne_of_digit h48 h57 _ (by decide), char_ne_of_digit h48 h57 _ (by decide),
        char_ne_of_digit h48 h57 _ (by decide)⟩
    · exact ⟨by decide, by decide, by decide⟩
  | hstr s =>
    intro h d hd
    simp only [cleanV] at h
    have hd2 : d ∈ '"' :: (escBody escJ s ++ ['"']) := hd
    rcases List.mem_cons.mp hd2 with rfl | hd3
    · exact ⟨by decide, by decide, by decide⟩
    rcases List.mem_append.mp hd3 with hd4 | hd5
    · obtain ⟨c, hc, hdc⟩ := escBody_mem hd4
      exact escJ_safe_chars (by
        rw [List.all_eq_true] at h
        exact h c hc) d hdc
    · simp at hd5
      subst hd5
      exact ⟨by decide, by decide, by decide⟩
  | hbool b =>
    intro _ d hd
    cases b
    · have hd2 : d ∈ ['f', 'a', 'l', 's', 'e'] := hd
      simp at hd2
      rcases hd2 with rfl | rfl | rfl | rfl | rfl <;> exact ⟨by decide, by decide, by decide⟩
    · have hd2 : d ∈ ['t', 'r', 'u', 'e'] := hd
      simp at hd2
      rcases hd2 with rfl | rfl | rfl | rfl <;> exact ⟨by decide, by decide, by decide⟩
  | hnone =>
    intro _ d hd
    have hd2 : d ∈ ['n', 'u', 'l', 'l'] := hd
    simp at hd2
    rcases hd2 with rfl | rfl | rfl <;> exact ⟨by decide, by decide, by decide⟩
  | hlist xs ihm =>
    intro h d hd
    simp only [cleanV] at h
    have main : ∀ (t : List PyValue) (x : PyValue),
        (∀ z ∈ x :: t, cleanV z = true → ∀ d ∈ prV jsonPr z, d ≠ 'T' ∧ d ≠ 'F' ∧ d ≠ 'N') →
        cleanL (x :: t) = true →
        ∀ d ∈ prL jsonPr (x :: t), d ≠ 'T' ∧ d ≠ 'F' ∧ d ≠ 'N' := by
      intro t
      induction t with
      | nil =>
        intro x hmem hcl e he
        simp only [cleanL, Bool.and_eq_true] at hcl
        have he2 : e ∈ prV jsonPr x ++ [']'] := he
        rcases List.mem_append.mp he2 with he3 | he4
        · exact hmem x (by simp) hcl.1 e he3
        · simp at he4
          subst he4
          exact ⟨by decide, by decide, by decide⟩
      | cons y t' ih =>
        intro x hmem hcl e he
        simp only [cleanL, Bool.and_eq_true] at hcl
        have he2 : e ∈ prV jsonPr x ++ ',' :: ' ' :: prL jsonPr (y :: t') := he
        rcases List.mem_append.mp he2 with he3 | he4
        · exact hmem x (by simp) hcl.1 e he3
        rcases List.mem_cons.mp he4 with rfl | he5
        · exact ⟨by decide, by decide, by decide⟩
        rcases List.mem_cons.mp he5 with rfl | he6
        · exact ⟨by decide, by decide, by decide⟩
        exact ih y (fun z hz => hmem z (List.mem_cons_of_mem x hz))
          (by simp only [cleanL, Bool.and_eq_true]; exact hcl.2) e he6
    cases xs with
    | nil =>
      have hd2 : d ∈ ['[', ']'] := hd
      simp at hd2
      rcases hd2 with rfl | rfl <;> exact ⟨by decide, by decide, by decide⟩
    | cons x t =>
      have hd2 : d ∈ '[' :: prL jsonPr (x :: t) := hd
      rcases List.mem_cons.mp hd2 with rfl | hd3
      · exact ⟨by decide, by decide, by decide⟩
      · exact main t x (fun z hz => ihm z hz) h d hd3
  | hdict xs ihm =>
    intro h d hd
    simp only [cleanV] at h
    have main : ∀ (t : List (List Char × PyValue)) (k : List Char) (v : PyValue),
        (∀ z ∈ (k, v) :: t, cleanV z.2 = true →
          ∀ d ∈ prV jsonPr z.2, d ≠ 'T' ∧ d ≠ 'F' ∧ d ≠ 'N') →
        cleanD ((k, v) :: t) = true →
        ∀ d ∈ prD jsonPr ((k, v) :: t), d ≠ 'T' ∧ d ≠ 'F' ∧ d ≠ 'N' := by
      intro t
      induction t with
      | nil =>
        intro k v hmem hcl e he
        simp only [cleanD, Bool.and_eq_true] at hcl
        have he2 : e ∈ '"' :: (escBody escJ k ++ '"' :: ':' :: ' ' :: prV jsonPr v ++ ['}']) := he
        rcases List.mem_cons.mp he2 with rfl | he3
        · exact ⟨by decide, by decide, by decide⟩
        rcases List.mem_append.mp he3 with he4 | he5
        · rcases List.mem_append.mp he4 with he6 | he7
          · obtain ⟨c, hc, hec⟩ := escBody_mem he6
            exact escJ_safe_chars (by
              have := hcl.1.1
              rw [List.all_eq_true] at this
              exact this c hc) e hec
          rcases List.mem_cons.mp he7 with rfl | he8
          · exact ⟨by decide, by decide, by decide⟩
          rcases List.mem_cons.mp he8 with rfl | he9
          · exact ⟨by decide, by decide, by decide⟩
          rcases List.mem_cons.mp he9 with rfl | he10
          · exact ⟨by decide, by decide, by decide⟩
          exact hmem (k, v) (by simp) hcl.1.2 e he10
        · simp at he5
          subst he5
          exact ⟨by decide, by decide, by decide⟩
      | cons e2 t' ih =>
        intro k v hmem hcl e he
        obtain ⟨ek, ev⟩ := e2
        simp only [cleanD, Bool.and_eq_true] at hcl
        have he2 : e ∈ '"' :: (escBody escJ k ++ '"' :: ':' :: ' ' :: prV jsonPr v ++
            ',' :: ' ' :: prD jsonPr ((ek, ev) :: t')) := he
        rcases List.mem_cons.mp he2 with rfl | he3
        · exact ⟨by decide, by decide, by decide⟩
        rcases List.mem_append.mp he3 with he4 | he5
        · rcases List.mem_append.mp he4 with he6 | he7
          · obtain ⟨c, hc, hec⟩ := escBody_mem he6
            exact escJ_safe_chars (by
              have := hcl.1.1
              rw [List.all_eq_true] at this
              exact this c hc) e hec
          rcases List.mem_cons.mp he7 with rfl | he8
          · exact ⟨by decide, by decide, by decide⟩
          rcases List.mem_cons.mp he8 with rfl | he9
          · exact ⟨by decide, by decide, by decide⟩
          rcases List.mem_cons.mp he9 with rfl | he10
          · exact ⟨by decide, by decide, by decide⟩
          exact hmem (k, v) (by simp) hcl.1.2 e he10
        rcases List.mem_cons.mp he5 with rfl | he11
        · exact ⟨by decide, by decide, by decide⟩
        rcases List.mem_cons.mp he11 with rfl | he12
        · exact ⟨by decide, by decide, by decide⟩
        exact ih ek ev (fun z hz => hmem z (List.mem_cons_of_mem (k, v) hz))
          (by simp only [cleanD, Bool.and_eq_true]; exact hcl.2) e he12
    cases xs with
    | nil =>
      have hd2 : d ∈ ['{', '}'] := hd
      simp at hd2
      rcases hd2 with rfl | rfl <;> exact ⟨by decide, by decide, by decide⟩
    | cons e t =>
      obtain ⟨k, v⟩ := e
      have hd2 : d ∈ '{' :: prD jsonPr ((k, v) :: t) := hd
      rcases List.mem_cons.mp hd2 with rfl | hd3
      · exact ⟨by decide, by decide, by decide⟩
      · exact main t k v (fun z hz => ihm z hz) h d hd3

/-- Under clean string contents, the quote-and-keyword rewrite carries a
mixed-quote rendering exactly onto the strict-JSON rendering. -/
theorem convertPy_mixed {v : PyValue} (h : cleanV v = true) :
    convertPy (prV mixedPr v) = prV jsonPr v := by
  unfold convertPy
  rw [show replaceL ['\''] ['"'] (prV mixedPr v) = (prV mixedPr v).map sq2dq from
      replaceAux_quote _ _ (le_refl _),
    prV_mixed_map_quote v h,
    replaceL_no_occ _ _ _ (fun hm => ((prV_json_no_TFN v h 'T' hm).1) rfl),
    replaceL_no_occ _ _ _ (fun hm => ((prV_json_no_TFN v h 'F' hm).2.1) rfl),
    replaceL_no_occ _ _ _ (fun hm => ((prV_json_no_TFN v h 'N' hm).2.2) rfl)]

-- ### `parse_mcp_result` on the three dialects.

theorem parse_mcp_json (v : PyValue) : parse_mcp_result ⟨prV jsonPr v⟩ = v := by
  unfold parse_mcp_result
  rw [show (⟨prV jsonPr v⟩ : String).data = prV jsonPr v from rfl, isBlank_prV_json,
    if_neg (by decide), jsonLoads_print]

theorem parse_mcp_py (v : PyValue) : parse_mcp_result ⟨prV pyPr v⟩ = v := by
  cases hsb : hasString v || hasBN v with
  | false =>
    rw [Bool.or_eq_false_iff] at hsb
    rw [show (⟨prV pyPr v⟩ : String) = ⟨prV jsonPr v⟩ from
        congrArg _ (prV_py_eq_json hsb.1 hsb.2)]
    exact parse_mcp_json v
  | true =>
    unfold parse_mcp_result
    rw [show (⟨prV pyPr v⟩ : String).data = prV pyPr v from rfl, isBlank_prV_py,
      if_neg (by decide), jsonLoads_py_fail hsb, literal_eval_print]

theorem parse_mcp_mixed {v : PyValue} (h : cleanV v = true) :
    parse_mcp_result ⟨prV mixedPr v⟩ = v := by
  cases hS : hasString v with
  | false =>
    rw [show (⟨prV mixedPr v⟩ : String) = ⟨prV jsonPr v⟩ from
        congrArg _ (prV_mixed_eq_json hS)]
    exact parse_mcp_json v
  | true =>
    cases hB : hasBN v with
    | false =>
      rw [show (⟨prV mixedPr v⟩ : String) = ⟨prV pyPr v⟩ from
          congrArg _ (prV_mixed_eq_py hB)]
      exact parse_mcp_py v
    | true =>
      unfold parse_mcp_result
      rw [show (⟨prV mixedPr v⟩ : String).data = prV mixedPr v from rfl, isBlank_prV_mixed,
        if_neg (by decide), jsonLoads_mixed_fail hS, literal_eval_mixed_fail hB,
        convertPy_mixed h,
        show runParse jsonCfg (prV jsonPr v) = some v from jsonLoads_print v]

-- ### Tool Executor and orchestrator lemmas.

/-- The result value of `query_mcp_server` does not depend on the
connection identifier (which only tags the event trace). -/
theorem query_mcp_server_fst (env : MCPEnv) (cid cid2 : Nat) (q : Option String)
    (t s : String) (o : Option String) :
    (query_mcp_server env cid q t s o).1 = (query_mcp_server env cid2 q t s o).1 := by
  unfold query_mcp_server
  cases env.connect with
  | fail msg => rfl
  | ok =>
    dsimp only
    cases toolRequest t q s o with
    | none => rfl
    | some p =>
      obtain ⟨tn, ta⟩ := p
      dsimp only
      cases env.call tn ta with
      | raises msg => rfl
      | returns contents =>
        dsimp only
        cases contents with
        | nil => rfl
        | cons c rest => rfl

/-- No LLM call ever appears in a Tool Executor trace. -/
theorem query_mcp_server_no_llm (env : MCPEnv) (cid : Nat) (q : Option String)
    (t s : String) (o : Option String) :
    ∀ e ∈ (query_mcp_server env cid q t s o).2, e ≠ Ev.llmCall true := by
  intro e he
  unfold query_mcp_server at he
  cases hcon : env.connect with
  | fail msg =>
    rw [hcon] at he
    simp at he
  | ok =>
    rw [hcon] at he
    dsimp only at he
    cases htr : toolRequest t q s o with
    | none =>
      rw [htr] at he
      simp at he
      rcases he with rfl | rfl <;> simp
    | some p =>
      obtain ⟨tn, ta⟩ := p
      rw [htr] at he
      dsimp only at he
      cases hcall : env.call tn ta with
      | raises msg =>
        rw [hcall] at he
        simp at he
        rcases he with rfl | rfl | rfl <;> simp
      | returns contents =>
        rw [hcall] at he
        dsimp only at he
        cases contents with
        | nil =>
          simp at he
          rcases he with rfl | rfl | rfl <;> simp
        | cons c rest =>
          simp at he
          rcases he with rfl | rfl | rfl <;> simp

/-- No tool-catalog LLM call ever appears in a workflow trace: the fixed
workflow only makes plain MCP calls and one plain formatting call. -/
theorem workflow_no_tool_llm (env : WfEnv) (q : String) :
    ∀ e ∈ (execute_fresh_connection_workflow env q).2, e ≠ Ev.llmCall true := by
  intro e he
  unfold execute_fresh_connection_workflow at he
  dsimp only at he
  split at he
  · exact query_mcp_server_no_llm env.mcp1 0 _ _ _ _ e he
  · split at he
    · split at he
      · rcases List.mem_append.mp he with he2 | he3
        · rcases List.mem_append.mp he2 with he4 | he5
          · exact query_mcp_server_no_llm env.mcp1 0 _ _ _ _ e he4
          · exact query_mcp_server_no_llm env.mcp2 1 _ _ _ _ e he5
        · simp at he3
          subst he3
          simp
      · rcases List.mem_append.mp he with he2 | he3
        · rcases List.mem_append.mp he2 with he4 | he5
          · exact query_mcp_server_no_llm env.mcp1 0 _ _ _ _ e he4
          · exact query_mcp_server_no_llm env.mcp2 1 _ _ _ _ e he5
        · simp at he3
          subst he3
          simp
    · rcases List.mem_append.mp he with he2 | he3
      · exact query_mcp_server_no_llm env.mcp1 0 _ _ _ _ e he2
      · exact query_mcp_server_no_llm env.mcp2 1 _ _ _ _ e he3

/-- A well-formed block executes without an uncaught fault, and its result
value does not depend on the connection identifier. -/
theorem execToolBlock_wf (env : MCPEnv) (cid : Nat) (b : ToolUseBlock)
    (h : wellFormedBlock b = true) :
    ∃ evs, execToolBlock env cid b = Except.ok (execToolResult env b, evs) := by
  unfold wellFormedBlock at h
  by_cases h1 : (b.name == "mcp_list_objects") = true
  · rw [if_pos h1] at h
    cases hd : dictGet b.input (("schema_name").data) with
    | none =>
      rw [hd] at h
      simp at h
    | some v =>
      cases v with
      | str sArg =>
        refine ⟨(query_mcp_server env cid Option.none "list_objects" ⟨sArg⟩ Option.none).2, ?_⟩
        have hr : execToolResult env b =
            (query_mcp_server env 0 Option.none "list_objects" ⟨sArg⟩ Option.none).1 := by
          simp [execToolResult, execToolBlock, h1, hd]
        rw [show execToolBlock env cid b =
            Except.ok (query_mcp_server env cid Option.none "list_objects" ⟨sArg⟩ Option.none)
            from by simp [execToolBlock, h1, hd],
          hr, query_mcp_server_fst env 0 cid]
      | int n =>
        rw [hd] at h
        simp at h
      | bool bb =>
        rw [hd] at h
        simp at h
      | none =>
        rw [hd] at h
        simp at h
      | list xs =>
        rw [hd] at h
        simp at h
      | dict xs =>
        rw [hd] at h
        simp at h
  · rw [if_neg h1] at h
    by_cases h2 : (b.name == "mcp_get_object_details") = true
    · rw [if_pos h2] at h
      cases hd : dictGet b.input (("object_name").data) with
      | none =>
        rw [hd] at h
        simp at h
      | some v =>
        cases v with
        | str sArg =>
          refine ⟨(query_mcp_server env cid Option.none "get_object_details" "public"
            (some ⟨sArg⟩)).2, ?_⟩
          have hr : execToolResult env b =
              (query_mcp_server env 0 Option.none "get_object_details" "public"
                (some ⟨sArg⟩)).1 := by
            simp [execToolResult, execToolBlock, h1, h2, hd]
          rw [show execToolBlock env cid b =
              Except.ok (query_mcp_server env cid Option.none "get_object_details" "public"
                (some ⟨sArg⟩))
              from by simp [execToolBlock, h1, h2, hd],
            hr, query_mcp_server_fst env 0 cid]
        | int n =>
          rw [hd] at h
          simp at h
        | bool bb =>
          rw [hd] at h
          simp at h
        | none =>
          rw [hd] at h
          simp at h
        | list xs =>
          rw [hd] at h
          simp at h
        | dict xs =>
          rw [hd] at h
          simp at h
    · rw [if_neg h2] at h
      by_cases h3 : (b.name == "mcp_execute_sql") = true
      · rw [if_pos h3] at h
        cases hd : dictGet b.input (("sql").data) with
        | none =>
          rw [hd] at h
          simp at h
        | some v =>
          cases v with
          | str sArg =>
            refine ⟨(query_mcp_server env cid (some ⟨sArg⟩) "execute_sql" "public"
              Option.none).2, ?_⟩
            have hr : execToolResult env b =
                (query_mcp_server env 0 (some ⟨sArg⟩) "execute_sql" "public" Option.none).1 := by
              simp [execToolResult, execToolBlock, h1, h2, h3, hd]
            rw [show execToolBlock env cid b =
                Except.ok (query_mcp_server env cid (some ⟨sArg⟩) "execute_sql" "public"
                  Option.none)
                from by simp [execToolBlock, h1, h2, h3, hd],
              hr, query_mcp_server_fst env 0 cid]
          | int n =>
            rw [hd] at h
            simp at h
          | bool bb =>
            rw [hd] at h
            simp at h
          | none =>
            rw [hd] at h
            simp at h
          | list xs =>
            rw [hd] at h
            simp at h
          | dict xs =>
            rw [hd] at h
            simp at h
      · refine ⟨[], ?_⟩
        have hr : execToolResult env b = PyValue.dict
            [(("success").data, PyValue.bool false),
             (("raw").data, PyValue.str ((("Unknown tool: ").data) ++ b.name.data))] := by
          simp [execToolResult, execToolBlock, h1, h2, h3]
        rw [show execToolBlock env cid b = Except.ok (PyValue.dict
            [(("success").data, PyValue.bool false),
             (("raw").data, PyValue.str ((("Unknown tool: ").data) ++ b.name.data))], ([] : List Ev))
            from by simp [execToolBlock, h1, h2, h3], hr]

/-- The tool loop on well-formed blocks: one correlated result message per
`tool_use` block, in order, each carrying the executing block's result. -/
theorem runToolLoop_wf (env : MCPEnv) :
    ∀ (blocks : List ContentBlock) (cid : Nat),
      (∀ b ∈ toolUses blocks, wellFormedBlock b = true) →
      (runToolLoop env cid blocks).map Prod.fst =
        Except.ok ((toolUses blocks).map
          (fun b => Message.toolResult b.id (toolResultContent (execToolResult env b)))) := by
  intro blocks
  induction blocks with
  | nil =>
    intro cid _
    rfl
  | cons blk rest ih =>
    intro cid hwf
    cases blk with
    | text s =>
      exact ih cid (fun b hb => hwf b hb)
    | toolUse b =>
      have hb : wellFormedBlock b = true := hwf b (List.mem_cons_self b (toolUses rest))
      obtain ⟨evs, hexec⟩ := execToolBlock_wf env cid b hb
      have hrest := ih (cid + 1) (fun z hz => hwf z (List.mem_cons_of_mem b hz))
      rw [show runToolLoop env cid (ContentBlock.toolUse b :: rest) =
          (match execToolBlock env cid b with
           | Except.error e => Except.error e
           | Except.ok (result, evs) =>
             match runToolLoop env (cid + 1) rest with
             | Except.error e => Except.error e
             | Except.ok (msgs, evs2, cid2) =>
               Except.ok (Message.toolResult b.id (toolResultContent result) :: msgs,
                 evs ++ evs2, cid2)) from rfl,
        hexec]
      cases hrt : runToolLoop env (cid + 1) rest with
      | error e =>
        rw [hrt] at hrest
        simp [Except.map] at hrest
      | ok trip =>
        obtain ⟨msgs, evs2, cid2⟩ := trip
        rw [hrt] at hrest
        simp only [Except.map] at hrest ⊢
        rw [show toolUses (ContentBlock.toolUse b :: rest) = b :: toolUses rest from rfl,
          List.map_cons]
        simp only [Except.ok.injEq] at hrest ⊢
        rw [hrest]

/-- Step equation of the fueled orchestrator (definitional). -/
theorem process_succ (env : MCPEnv) (model : List Message → ModelResponse) (fuel cid : Nat)
    (resp : ModelResponse) :
    process_claude_tool_response env model (fuel + 1) cid resp =
      (if resp.stop_reason == "tool_use" then
        match runToolLoop env cid resp.content with
        | Except.error e => (RunOutcome.raised e, [], [])
        | Except.ok (tool_results, evs, cid2) =>
          let msgs := Message.userText execInstruction ::
            Message.assistantBlocks resp.content :: tool_results
          let final := model msgs
          if final.content.length == 0 then
            (RunOutcome.answered noContentMsg, [msgs], evs ++ [Ev.llmCall false])
          else if final.stop_reason == "tool_use" then
            let rec_result := process_claude_tool_response env model fuel cid2 final
            (rec_result.1, msgs :: rec_result.2.1, (evs ++ [Ev.llmCall false]) ++ rec_result.2.2)
          else
            (RunOutcome.answered (firstText final), [msgs], evs ++ [Ev.llmCall false])
      else (RunOutcome.answered (firstText resp), [], [])) := rfl

/-- On a tool-use response whose loop succeeds, the transcript submitted
next is the instruction turn, the assistant turn, then the tool results. -/
theorem process_first_sub (env : MCPEnv) (model : List Message → ModelResponse) (fuel cid : Nat)
    (resp : ModelResponse) (hstop : resp.stop_reason = "tool_use")
    {results : List Message} {evs : List Ev} {cid2 : Nat}
    (hrt : runToolLoop env cid resp.content = Except.ok (results, evs, cid2)) :
    (process_claude_tool_response env model (fuel + 1) cid resp).2.1.head? =
      some (Message.userText execInstruction :: Message.assistantBlocks resp.content :: results) := by
  rw [process_succ, hstop, if_pos (show (("tool_use" : String) == "tool_use") = true from rfl),
    hrt]
  dsimp only
  by_cases hlen : ((model (Message.userText execInstruction ::
      Message.assistantBlocks resp.content :: results)).content.length == 0) = true
  · rw [if_pos hlen]
    rfl
  · rw [if_neg hlen]
    by_cases hfin : ((model (Message.userText execInstruction ::
        Message.assistantBlocks resp.content :: results)).stop_reason == "tool_use") = true
    · rw [if_pos hfin]
      rfl
    · rw [if_neg hfin]
      rfl

-- ### Claim theorems

/-- **C1** (corrected).  The spec claims the orchestrator terminates within
a configured turn limit; the source has no turn counter and recurses on
every further tool-use response (main.py:546-548).  Amended statement:
against the adversarial model double that always requests more tools, the
run is still recursing after every bounded number of turns. -/
theorem C1_amended : ∀ (fuel cid : Nat),
    (process_claude_tool_response benignEnv advModel fuel cid advResp).1 =
      RunOutcome.running := by
  intro fuel
  induction fuel with
  | zero =>
    intro cid
    rfl
  | succ f ih =>
    intro cid
    show (process_claude_tool_response benignEnv advModel f (cid + 1) advResp).1 =
      RunOutcome.running
    exact ih (cid + 1)

/-- **C2** (corrected).  Every result of the Tool Executor is a returned
value (never a raised fault): either a success, or a failure carrying a
`raw` diagnostic — except the empty-response path (main.py:230), which
returns success `False` with no `raw` field at all. -/
theorem C2_amended : ∀ (env : MCPEnv) (cid : Nat) (q : Option String) (tool schema : String)
    (obj : Option String),
    dictGet (query_mcp_server env cid q tool schema obj).1 (("success").data) =
        some (PyValue.bool true) ∨
    (dictGet (query_mcp_server env cid q tool schema obj).1 (("success").data) =
        some (PyValue.bool false) ∧
      ((∃ m : List Char, dictGet (query_mcp_server env cid q tool schema obj).1 (("raw").data) =
          some (PyValue.str m)) ∨
        (query_mcp_server env cid q tool schema obj).1 = mcpNoContent)) := by
  intro env cid q tool schema obj
  unfold query_mcp_server
  cases env.connect with
  | fail msg =>
    right
    exact ⟨rfl, Or.inl ⟨_, rfl⟩⟩
  | ok =>
    dsimp only
    cases toolRequest tool q schema obj with
    | none =>
      right
      exact ⟨rfl, Or.inl ⟨_, rfl⟩⟩
    | some p =>
      obtain ⟨tn, ta⟩ := p
      dsimp only
      cases env.call tn ta with
      | raises msg =>
        right
        exact ⟨rfl, Or.inl ⟨_, rfl⟩⟩
      | returns contents =>
        dsimp only
        cases contents with
        | nil =>
          right
          exact ⟨rfl, Or.inr rfl⟩
        | cons c rest =>
          left
          rfl

/-- **C6** (corrected).  The source rebuilds the submitted transcript from
scratch on every turn (main.py:522-525), so submissions are not extensions
of one another; what does hold is that every submitted transcript begins
with the hardcoded instruction turn. -/
theorem C6_amended : ∀ (env : MCPEnv) (model : List Message → ModelResponse) (fuel cid : Nat)
    (resp : ModelResponse),
    ∀ sub ∈ (process_claude_tool_response env model fuel cid resp).2.1,
      sub.head? = some (Message.userText execInstruction) := by
  intro env model fuel
  induction fuel with
  | zero =>
    intro cid resp sub hsub
    simp [process_claude_tool_response] at hsub
  | succ f ih =>
    intro cid resp sub hsub
    rw [process_succ] at hsub
    by_cases hstop : (resp.stop_reason == "tool_use") = true
    · rw [if_pos hstop] at hsub
      cases hrt : runToolLoop env cid resp.content with
      | error e =>
        rw [hrt] at hsub
        simp at hsub
      | ok trip =>
        obtain ⟨results, evs, cid2⟩ := trip
        rw [hrt] at hsub
        dsimp only at hsub
        by_cases hlen : ((model (Message.userText execInstruction ::
            Message.assistantBlocks resp.content :: results)).content.length == 0) = true
        · rw [if_pos hlen] at hsub
          simp at hsub
          subst hsub
          rfl
        · rw [if_neg hlen] at hsub
          by_cases hfin : ((model (Message.userText execInstruction ::
              Message.assistantBlocks resp.content :: results)).stop_reason == "tool_use") = true
          · rw [if_pos hfin] at hsub
            dsimp only at hsub
            rcases List.mem_cons.mp hsub with rfl | hsub2
            · rfl
            · exact ih cid2 _ sub hsub2
          · rw [if_neg hfin] at hsub
            simp at hsub
            subst hsub
            rfl
    · rw [if_neg hstop] at hsub
      simp at hsub

/-- **C7** (confirmed).  On a response whose stop reason is not tool use,
the orchestrator answers with that response's leading text, submits no
further transcript, and performs no external call (main.py:553-555). -/
theorem C7_theorem : ∀ (env : MCPEnv) (model : List Message → ModelResponse) (fuel cid : Nat)
    (resp : ModelResponse), resp.stop_reason ≠ "tool_use" →
    process_claude_tool_response env model (fuel + 1) cid resp =
      (RunOutcome.answered (firstText resp), [], []) := by
  intro env model fuel cid resp h
  rw [process_succ, if_neg (by simp [h])]

/-- **C8** (confirmed).  A blank question is rejected with HTTP 400 before
any external call: the event trace of the request is empty
(main.py:616-617). -/
theorem C8_theorem : ∀ (env : WfEnv) (question : String), pyStrip question.data = [] →
    ask_question env question = (HTTPResult.error 400 "Question cannot be empty", []) := by
  intro env question h
  unfold ask_question
  rw [if_pos (Or.inr h)]

/-- **C9** (corrected).  On an established connection the Tool Executor
opens exactly one connection, emits at most one tool call, and closes the
connection last; but on the connection-establishment failure path no
connection is opened at all, contradicting the claim that every call
establishes exactly one connection. -/
theorem C9_amended : ∀ (env : MCPEnv) (cid : Nat) (q : Option String) (tool schema : String)
    (obj : Option String),
    (∀ msg, env.connect = ConnOutcome.fail msg →
      (query_mcp_server env cid q tool schema obj).2 = []) ∧
    (env.connect = ConnOutcome.ok →
      ((query_mcp_server env cid q tool schema obj).2.head? = some (Ev.openConn cid) ∧
       (query_mcp_server env cid q tool schema obj).2.getLast? = some (Ev.closeConn cid) ∧
       ((query_mcp_server env cid q tool schema obj).2.length = 2 ∨
        (query_mcp_server env cid q tool schema obj).2.length = 3))) := by
  intro env cid q tool schema obj
  constructor
  · intro msg hm
    unfold query_mcp_server
    rw [hm]
  · intro hok
    unfold query_mcp_server
    rw [hok]
    dsimp only
    cases toolRequest tool q schema obj with
    | none => exact ⟨rfl, rfl, Or.inl rfl⟩
    | some p =>
      obtain ⟨tn, ta⟩ := p
      dsimp only
      cases env.call tn ta with
      | raises msg => exact ⟨rfl, rfl, Or.inr rfl⟩
      | returns contents =>
        dsimp only
        cases contents with
        | nil => exact ⟨rfl, rfl, Or.inr rfl⟩
        | cons c rest => exact ⟨rfl, rfl, Or.inr rfl⟩

/-- **C10** (confirmed).  The `/ask` endpoint delegates, through the two
aliases, to the fixed three-step workflow; its trace never contains a
tool-catalog LLM call, so the free-form tool-use loop is never invoked
from `/ask`. -/
theorem C10_theorem : ∀ (env : WfEnv) (question : String),
    claude_orchestrated_query env question = claude_orchestrated_query_optimized env question ∧
    claude_orchestrated_query_optimized env question =
      execute_fresh_connection_workflow env question ∧
    (¬(question = "" ∨ pyStrip question.data = []) →
      ask_question env question =
        (HTTPResult.ok
          { answer := (execute_fresh_connection_workflow env question).1
            sources := ["Claude + Postgres MCP integration"]
            course_data := [] },
         (execute_fresh_connection_workflow env question).2)) ∧
    (∀ e ∈ (ask_question env question).2, e ≠ Ev.llmCall true) := by
  intro env question
  refine ⟨rfl, rfl, ?_, ?_⟩
  · intro h
    unfold ask_question
    rw [if_neg h]
    rfl
  · intro e he
    unfold ask_question at he
    by_cases h : question = "" ∨ pyStrip question.data = []
    · rw [if_pos h] at he
      simp at he
    · rw [if_neg h] at he
      dsimp only at he
      exact workflow_no_tool_llm env question e he

/-- **C3** (corrected).  Off the blank-input guard, the normalizer is
exactly the spec's three-stage strategy chain with the marked fallback;
the guard itself (main.py:56-58) returns an unmarked wrapper the spec does
not describe. -/
theorem C3_amended : ∀ t : String, isBlank t.data = false →
    parse_mcp_result t = normalizeSpec t := by
  intro t h
  unfold parse_mcp_result normalizeSpec
  rw [h, if_neg (by decide)]

/-- **C3** counterexample: on a whitespace-only input the source returns
the `raw_text` wrapper without any parse-failure marker, while the spec's
chain would return the marked wrapper. -/
theorem C3_counterexample :
    parse_mcp_result (String.mk [' ']) ≠ normalizeSpec (String.mk [' ']) := by decide

theorem C3_witness :
    isBlank (String.mk ['o', 'k']).data = false ∧
      parse_mcp_result (String.mk ['o', 'k']) = normalizeSpec (String.mk ['o', 'k']) :=
  ⟨by decide, C3_amended (String.mk ['o', 'k']) (by decide)⟩

/-- **C4** (corrected).  The strict-JSON and Python-literal dialects round
trip unconditionally; the mixed-quote dialect round trips only when no
string content carries a quote character or a capitalised keyword head,
because the rewrite of main.py:79-81 edits inside string bodies. -/
theorem C4_amended :
    (∀ v : PyValue, parse_mcp_result ⟨prV jsonPr v⟩ = v) ∧
    (∀ v : PyValue, parse_mcp_result ⟨prV pyPr v⟩ = v) ∧
    (∀ v : PyValue, cleanV v = true → parse_mcp_result ⟨prV mixedPr v⟩ = v) :=
  ⟨parse_mcp_json, parse_mcp_py, fun _ h => parse_mcp_mixed h⟩

/-- **C4** counterexample: a mixed-quote tool result whose string value
contains `True ` is corrupted by the quote-and-keyword rewrite, so the
normalizer returns a different value than the dialect denotes. -/
theorem C4_counterexample :
    parse_mcp_result ⟨prV mixedPr (PyValue.dict
      [(("ok").data, PyValue.bool true),
       (("msg").data, PyValue.str (("True story").data))])⟩ ≠
    PyValue.dict
      [(("ok").data, PyValue.bool true),
       (("msg").data, PyValue.str (("True story").data))] := by decide

theorem C4_witness :
    cleanV (PyValue.dict [(("ok").data, PyValue.bool true)]) = true ∧
      parse_mcp_result ⟨prV mixedPr (PyValue.dict [(("ok").data, PyValue.bool true)])⟩ =
        PyValue.dict [(("ok").data, PyValue.bool true)] :=
  ⟨by decide, C4_amended.2.2 (PyValue.dict [(("ok").data, PyValue.bool true)]) (by decide)⟩

/-- **C5** (confirmed).  On a tool-use response whose blocks are
well-formed, the loop executes each `tool_use` block once, in order,
producing exactly one correlated tool-result message per block, and the
next submitted transcript contains all of them. -/
theorem C5_theorem : ∀ (env : MCPEnv) (model : List Message → ModelResponse) (fuel cid : Nat)
    (resp : ModelResponse), resp.stop_reason = "tool_use" →
    (∀ b ∈ toolUses resp.content, wellFormedBlock b = true) →
    (runToolLoop env cid resp.content).map Prod.fst =
      Except.ok ((toolUses resp.content).map
        (fun b => Message.toolResult b.id (toolResultContent (execToolResult env b)))) ∧
    (process_claude_tool_response env model (fuel + 1) cid resp).2.1.head? =
      some (Message.userText execInstruction :: Message.assistantBlocks resp.content ::
        (toolUses resp.content).map
          (fun b => Message.toolResult b.id (toolResultContent (execToolResult env b)))) := by
  intro env model fuel cid resp hstop hwf
  have h1 := runToolLoop_wf env resp.content cid hwf
  refine ⟨h1, ?_⟩
  cases hrt : runToolLoop env cid resp.content with
  | error e =>
    rw [hrt] at h1
    simp [Except.map] at h1
  | ok trip =>
    obtain ⟨results, evs, cid2⟩ := trip
    rw [hrt] at h1
    simp only [Except.map, Except.ok.injEq] at h1
    rw [process_first_sub env model fuel cid resp hstop hrt, h1]

theorem C5_witness :
    (runToolLoop benignEnv 0 advResp.content).map Prod.fst =
      Except.ok ((toolUses advResp.content).map
        (fun b => Message.toolResult b.id (toolResultContent (execToolResult benignEnv b)))) ∧
    (process_claude_tool_response benignEnv advModel 1 0 advResp).2.1.head? =
      some (Message.userText execInstruction :: Message.assistantBlocks advResp.content ::
        (toolUses advResp.content).map
          (fun b => Message.toolResult b.id (toolResultContent (execToolResult benignEnv b)))) :=
  C5_theorem benignEnv advModel 0 0 advResp rfl (by decide)

/-- **C1** counterexample: after ten turns against the adversarial model
double the orchestrator is still recursing. -/
theorem C1_counterexample :
    (process_claude_tool_response benignEnv advModel 10 0 advResp).1 =
      RunOutcome.running := by decide

/-- **C2** counterexample: the empty-response path returns success `False`
with no `raw` diagnostic field, contradicting the claimed
`{success: false, raw: ...}` shape. -/
theorem C2_counterexample :
    dictGet (query_mcp_server emptyContentEnv 0 Option.none "list_objects" "public"
        Option.none).1 (("success").data) = some (PyValue.bool false) ∧
    dictGet (query_mcp_server emptyContentEnv 0 Option.none "list_objects" "public"
        Option.none).1 (("raw").data) = Option.none := by decide

/-- **C6** counterexample: the run that answers after two tool rounds
submits two transcripts, and the first transcript's tool-result turn is
dropped from the second — the transcript is not append-only. -/
theorem C6_counterexample :
    c6Run.1 = RunOutcome.answered "done" ∧
    c6Run.2.1.length = 2 ∧
    c6FirstSub.all (fun m => c6SecondSub.contains m) = false := by decide

theorem C6_witness :
    c6FirstSub ∈ c6Run.2.1 ∧
      c6FirstSub.head? = some (Message.userText execInstruction) :=
  ⟨by decide, C6_amended benignEnv cexModel 5 0 cexResp1 c6FirstSub (by decide)⟩

theorem C7_witness :
    ({ stop_reason := "end_turn", content := [ContentBlock.text "hi"] } :
        ModelResponse).stop_reason ≠ "tool_use" ∧
    process_claude_tool_response benignEnv advModel 1 0
        { stop_reason := "end_turn", content := [ContentBlock.text "hi"] } =
      (RunOutcome.answered (firstText
        { stop_reason := "end_turn", content := [ContentBlock.text "hi"] }), [], []) :=
  ⟨by decide, C7_theorem benignEnv advModel 0 0 _ (by decide)⟩

theorem C8_witness :
    pyStrip ((String.mk [' ', ' '])).data = [] ∧
    ask_question wfBenignEnv (String.mk [' ', ' ']) =
      (HTTPResult.error 400 "Question cannot be empty", []) :=
  ⟨by decide, C8_theorem wfBenignEnv (String.mk [' ', ' ']) (by decide)⟩

/-- **C9** counterexample: when connection establishment fails, the call
returns with an empty event trace — no connection was ever opened, so the
claimed `exactly one connection per call, closed before returning` does
not hold on this failure path. -/
theorem C9_counterexample :
    (query_mcp_server connFailEnv 0 Option.none "list_objects" "public" Option.none).2 =
      [] := by decide

theorem C9_witness :
    (query_mcp_server connFailEnv 3 Option.none "list_objects" "public" Option.none).2 = [] ∧
    (query_mcp_server benignEnv 0 Option.none "list_objects" "public" Option.none).2.head? =
      some (Ev.openConn 0) :=
  ⟨(C9_amended connFailEnv 3 Option.none "list_objects" "public" Option.none).1
      "connection refused" rfl,
   ((C9_amended benignEnv 0 Option.none "list_objects" "public" Option.none).2 rfl).1⟩

theorem C10_witness :
    ¬((("what is the email policy") : String) = "" ∨
        pyStrip (("what is the email policy") : String).data = []) ∧
      ask_question wfBenignEnv ("what is the email policy") =
        (HTTPResult.ok
          { answer := (execute_fresh_connection_workflow wfBenignEnv
              ("what is the email policy")).1
            sources := ["Claude + Postgres MCP integration"]
            course_data := [] },
         (execute_fresh_connection_workflow wfBenignEnv ("what is the email policy")).2) :=
  ⟨by decide,
   (C10_theorem wfBenignEnv ("what is the email policy")).2.2.1 (by decide)⟩
